import Mathlib

/-!
# Verification of the tree-style-terminal session core

Shallow embedding of the session-tree domain model and the session lifecycle
manager of `tree_style_terminal` (files `models/tree.py`, `models/session.py`,
`controllers/session_manager.py`, `widgets/terminal.py`), together with proofs
of the specification claims about them.

Sessions are identified by natural numbers.  `TerminalSession` values compare
and hash by `(pid, pty_fd)` alone (see `models/session.py`), so a session
behaves, as a dictionary key or list element, exactly like its identity; the
tree model therefore uses bare identifiers.  The `children` attribute lives on
the session object itself in Python; here it is kept in a per-identifier store
(`child_lists`) inside the tree state, which is equivalent because every claim
concerns a single tree.

Python dictionaries are embedded as association lists: assignment updates the
entry in place or appends a new one, `del` removes the entry, `get` looks the
key up from the front.
-/

namespace TST

/-- Lookup in an association list (Python `dict.get` / `dict[k]`). -/
def alookup {α : Type} : List (Nat × α) → Nat → Option α
  | [], _ => none
  | (k', v) :: rest, k => if k' = k then some v else alookup rest k

/-- Assignment `d[k] = v` on a Python dict: replace the existing entry or
append a fresh one. -/
def ainsert {α : Type} : List (Nat × α) → Nat → α → List (Nat × α)
  | [], k, v => [(k, v)]
  | (k', v') :: rest, k, v =>
      if k' = k then (k, v) :: rest else (k', v') :: ainsert rest k v

/-- Deletion `del d[k]` on a Python dict.  Keys are unique by construction of
`ainsert`, so removing every pair with key `k` removes exactly the one entry. -/
def aerase {α : Type} : List (Nat × α) → Nat → List (Nat × α)
  | [], _ => []
  | (k', v') :: rest, k =>
      if k' = k then aerase rest k else (k', v') :: aerase rest k

/-! ## The session tree (`models/tree.py`, class `SessionTree`)

State: `root_nodes` is the tree's root list, `parent_map` embeds
`_parent_map : dict[TerminalSession, Optional[TerminalSession]]`, and
`child_lists` holds the `children` attribute of every session object
(absent entry = empty list, the dataclass default). -/

structure SessionTree where
  root_nodes : List Nat
  parent_map : List (Nat × Option Nat)
  child_lists : List (Nat × List Nat)
  deriving Repr, DecidableEq

/-- The empty tree (`SessionTree.__init__`), with all session objects still
carrying their default empty `children` list. -/
def SessionTree.empty : SessionTree := ⟨[], [], []⟩

/-- `session.children` for the session object identified by `s`. -/
def children (t : SessionTree) (s : Nat) : List Nat :=
  (alookup t.child_lists s).getD []

/-- Replace the `children` list of session `s` (in-place list mutation on the
session object). -/
def setChildren (t : SessionTree) (s : Nat) (l : List Nat) : SessionTree :=
  { t with child_lists := ainsert t.child_lists s l }

/-- `self._parent_map.get(session)`: `none` = untracked,
`some none` = tracked root, `some (some p)` = tracked with parent `p`. -/
def pm (t : SessionTree) (s : Nat) : Option (Option Nat) :=
  alookup t.parent_map s

/-- A session is tracked iff it has a `_parent_map` entry. -/
def tracked (t : SessionTree) (s : Nat) : Prop :=
  pm t s ≠ none

instance (t : SessionTree) (s : Nat) : Decidable (tracked t s) := by
  unfold tracked; infer_instance

/-- `SessionTree.add_node`. -/
def add_node (t : SessionTree) (session : Nat) (parent : Option Nat) : SessionTree :=
  match parent with
  | none =>
      { t with root_nodes := t.root_nodes ++ [session],
               parent_map := ainsert t.parent_map session none }
  | some p =>
      let t1 := if session ∈ children t p then t
                else setChildren t p (children t p ++ [session])
      { t1 with parent_map := ainsert t1.parent_map session (some p) }

/-- One iteration of the adoption loop in `SessionTree.remove_node`:
the child `c` is appended to the grandparent's children (or to the roots)
and re-mapped. -/
def adoptOne (parent : Option Nat) (t : SessionTree) (c : Nat) : SessionTree :=
  match parent with
  | none =>
      { t with root_nodes := t.root_nodes ++ [c],
               parent_map := ainsert t.parent_map c none }
  | some p =>
      let t1 := setChildren t p (children t p ++ [c])
      { t1 with parent_map := ainsert t1.parent_map c (some p) }

/-- `SessionTree.remove_node`.  `List.erase` removes the first occurrence and
is the identity when the element is absent, matching the guarded
`if session in …: ….remove(session)` of the source. -/
def remove_node (t : SessionTree) (session : Nat) : SessionTree :=
  match pm t session with
  | none => t
  | some parent =>
      let cs := children t session
      let t1 := cs.foldl (adoptOne parent) t
      let t2 := match parent with
        | none => { t1 with root_nodes := t1.root_nodes.erase session }
        | some p => setChildren t1 p ((children t1 p).erase session)
      { t2 with child_lists := ainsert t2.child_lists session [],
                parent_map := aerase t2.parent_map session }

/-- `SessionTree.get_parent` (`dict.get`: `None` both for roots and for
untracked sessions). -/
def get_parent (t : SessionTree) (s : Nat) : Option Nat :=
  match pm t s with
  | none => none
  | some v => v

/-- `SessionTree.get_children` (returns a copy; copying is the identity on
values — the aliasing aspect is modelled separately on the heap model). -/
def get_children (t : SessionTree) (s : Nat) : List Nat :=
  children t s

/-- `SessionTree.get_roots` (returns a copy). -/
def get_roots (t : SessionTree) : List Nat :=
  t.root_nodes

/-- `SessionTree.is_empty`. -/
def is_empty (t : SessionTree) : Bool :=
  t.root_nodes.length = 0

/-- `SessionTree.get_all_sessions`: the keys of `_parent_map`. -/
def get_all_sessions (t : SessionTree) : List Nat :=
  t.parent_map.map Prod.fst

/-! ## Parent chains and the forest well-formedness predicate -/

/-- One step up the parent chain (`none` when the session is untracked or a
root). -/
def stepParent (t : SessionTree) (x : Nat) : Option Nat :=
  match pm t x with
  | some (some p) => some p
  | _ => none

/-- Iterate `stepParent` on an optional node; once `none`, stays `none`. -/
def iterChain (t : SessionTree) : Nat → Option Nat → Option Nat
  | 0, o => o
  | n + 1, o => iterChain t n (o.bind (stepParent t))

/-- The parent chain starting at `x` reaches `none` (no cycle through `x`). -/
def termin (t : SessionTree) (x : Nat) : Prop :=
  ∃ n, iterChain t n (some x) = none

/-- Well-formedness of a tree state: exactly the §3 forest invariants of the
spec, as maintained by `add_node`/`remove_node`. -/
structure WF (t : SessionTree) : Prop where
  rootsNodup : t.root_nodes.Nodup
  childNodup : ∀ x, (children t x).Nodup
  rootIff : ∀ x, x ∈ t.root_nodes ↔ pm t x = some none
  childIff : ∀ p c, c ∈ children t p ↔ pm t c = some (some p)
  parentTracked : ∀ c p, pm t c = some (some p) → tracked t p
  termin : ∀ x, termin t x

/-! ## Operation sequences and the forest invariant (claim C2) -/

/-- A tree operation: `SessionTree.add_node` or `SessionTree.remove_node`. -/
inductive Op where
  | add (session : Nat) (parent : Option Nat)
  | remove (session : Nat)
  deriving Repr, DecidableEq

def applyOp (t : SessionTree) : Op → SessionTree
  | .add s p => add_node t s p
  | .remove s => remove_node t s

def applyOps (t : SessionTree) (ops : List Op) : SessionTree :=
  ops.foldl applyOp t

/-- Well-formed use of the tree API: an added session is not already tracked
and a non-null parent is tracked; `remove` takes any argument. -/
def wfOp (t : SessionTree) : Op → Bool
  | .add s p =>
      !(pm t s).isSome && (match p with
        | none => true
        | some q => (pm t q).isSome)
  | .remove _ => true

def wfOps : SessionTree → List Op → Bool
  | _, [] => true
  | t, op :: rest => wfOp t op && wfOps (applyOp t op) rest

/-- Sessions reachable from the root list by following `children`. -/
inductive ReachableFromRoots (t : SessionTree) : Nat → Prop where
  | root {x : Nat} : x ∈ t.root_nodes → ReachableFromRoots t x
  | child {p c : Nat} : ReachableFromRoots t p → c ∈ children t p →
      ReachableFromRoots t c

/-- The forest invariants of claim C2: tracked = reachable-from-roots,
children lists match the parent map exactly, roots are exactly the sessions
mapped to null, each session has at most one parent, and the parent relation
is acyclic. -/
def ForestInvariant (t : SessionTree) : Prop :=
  (∀ x, x ∈ get_all_sessions t ↔ ReachableFromRoots t x)
  ∧ (∀ p, tracked t p →
      (children t p).Nodup ∧ ∀ c, c ∈ children t p ↔ pm t c = some (some p))
  ∧ (t.root_nodes.Nodup ∧ ∀ x, x ∈ t.root_nodes ↔ pm t x = some none)
  ∧ (∀ c p q, c ∈ children t p → c ∈ children t q → p = q)
  ∧ (∀ x n, 0 < n → iterChain t n (some x) ≠ some x)

/-! ## The session lifecycle manager (`controllers/session_manager.py`)

`SessionManager` state.  Sessions and VTE widgets are identified by the value
of `_session_counter` at their creation (`new_session` uses the counter as
both `pid` and `pty_fd`, and equality of `TerminalSession` is by that pair).
`terminals` is the key list of `_session_terminals` (insertion order);
`liveWidgets` records allocated `VteTerminal` widgets not yet destroyed;
`cwds` holds each session object's `cwd` attribute.  Callback invocations are
recorded in the `…Calls` logs (modelling callbacks that are set); external
effects (signal wiring, process signals, logging) have no model state. -/

structure SessionManager where
  tree : SessionTree
  current : Option Nat
  terminals : List Nat
  counter : Nat
  liveWidgets : List Nat
  cwds : List (Nat × String)
  createdCalls : List Nat
  closedCalls : List (Nat × List Nat × Option Nat)
  selectedCalls : List Nat
  deriving Repr, DecidableEq

/-- `SessionManager.select_session`: selects only sessions with a registered
surface; otherwise logs and does nothing. -/
def select_session (m : SessionManager) (s : Nat) : SessionManager :=
  if s ∈ m.terminals then
    { m with current := some s, selectedCalls := m.selectedCalls ++ [s] }
  else m

/-- `SessionManager.new_session`, with the outcome of
`terminal_widget.spawn_shell` (external collaborator) passed in as `spawnOk`
and the home directory (`os.path.expanduser("~")`) as `home`. -/
def new_session (m : SessionManager) (spawnOk : Bool) (home : String)
    (parent : Option Nat) (cwdArg : Option String) :
    SessionManager × Option Nat :=
  let counter := m.counter + 1
  let m1 := { m with counter := counter }
  let cwd := match cwdArg with
    | some c => c
    | none =>
        match parent with
        | some p =>
            let pc := (alookup m1.cwds p).getD ""
            if pc ≠ "" then pc else home
        | none => home
  let widget := counter
  let m2 := { m1 with liveWidgets := m1.liveWidgets ++ [widget] }
  if spawnOk = false then
    ({ m2 with liveWidgets := m2.liveWidgets.erase widget }, none)
  else
    let s := counter
    let m3 := { m2 with cwds := ainsert m2.cwds s cwd,
                        terminals := m2.terminals ++ [s] }
    let m4 := { m3 with tree := add_node m3.tree s parent }
    let m5 := { m4 with current := some s }
    let m6 := { m5 with createdCalls := m5.createdCalls ++ [s] }
    (m6, some s)

/-- `SessionManager.new_sibling`: with a current session, creates under the
current session's parent as computed by `get_parent`. -/
def new_sibling (m : SessionManager) (spawnOk : Bool) (home : String) :
    SessionManager × Option Nat :=
  match m.current with
  | none => new_session m spawnOk home none none
  | some c =>
      new_session m spawnOk home (get_parent m.tree c)
        (some ((alookup m.cwds c).getD ""))

/-- Fallback of `close_session` when neither parent nor first child is
selectable: select the first remaining root, or clear the current session. -/
def closeFallbackRoots (m : SessionManager) : SessionManager :=
  match get_roots m.tree with
  | r :: _ => select_session m r
  | [] => { m with current := none }

/-- Second branch of `close_session`'s replacement priority: the first
snapshotted child, if it has a registered surface. -/
def closeFallbackChild (m : SessionManager) (cs : List Nat) : SessionManager :=
  match cs with
  | c :: _ => if c ∈ m.terminals then select_session m c else closeFallbackRoots m
  | [] => closeFallbackRoots m

/-- Replacement-selection step of `SessionManager.close_session` (runs after
the surface mapping was dropped and the session removed from the tree). -/
def closeUpdateCurrent (m2 : SessionManager) (s : Nat) (cs : List Nat)
    (par : Option Nat) : SessionManager :=
  if m2.current = some s then
    match par with
    | some p =>
        if p ∈ m2.terminals then select_session m2 p
        else closeFallbackChild m2 cs
    | none => closeFallbackChild m2 cs
  else m2

/-- `SessionManager.close_session`: snapshot children and parent, drop the
surface mapping (widget `close()` only signals the process and does not
destroy the widget), remove from the tree, update the current session, then
invoke the closed callback unconditionally. -/
def close_session (m : SessionManager) (s : Nat) : SessionManager :=
  let cs := children m.tree s
  let par := get_parent m.tree s
  let m1 := if s ∈ m.terminals then { m with terminals := m.terminals.erase s }
            else m
  let m2 := { m1 with tree := remove_node m1.tree s }
  let m3 := closeUpdateCurrent m2 s cs par
  { m3 with closedCalls := m3.closedCalls ++ [(s, cs, par)] }

/-! ## The session entity (`models/session.py`, class `TerminalSession`) -/

structure TerminalSession where
  pid : Int
  pty_fd : Int
  cwd : String
  title : Option String
  children : List Nat
  deriving Repr, DecidableEq

/-- `TerminalSession.__eq__`: pid and pty_fd only (title, cwd and children
are excluded; `children` is declared `compare=False` in the dataclass). -/
def sessionEq (a b : TerminalSession) : Bool :=
  a.pid == b.pid && a.pty_fd == b.pty_fd

/-- `TerminalSession.__hash__` is `hash((pid, pty_fd))`: the Python tuple
hash is some fixed function of the pair, modelled by the parameter `h2`. -/
def sessionHash (h2 : Int × Int → Int) (s : TerminalSession) : Int :=
  h2 (s.pid, s.pty_fd)

/-- Lookup in a dictionary keyed by sessions: Python resolves keys by hash
bucket and then `__eq__`; since the hash is a function of `(pid, pty_fd)`
this is first-match by `sessionEq`. -/
def sessionLookup {V : Type} :
    List (TerminalSession × V) → TerminalSession → Option V
  | [], _ => none
  | (k, v) :: rest, s => if sessionEq k s then some v else sessionLookup rest s

/-! ## Defensive copies (claim C9): a heap model of Python lists

`get_roots` and `get_children` execute `list.copy()`: they allocate a fresh
list object with the same contents and hand the caller a reference to it.
To make the aliasing observable, list objects live in a heap of cells
addressed by allocation order, and the queries return a freshly allocated
reference. -/

structure ListHeap where
  cells : List (List Nat)
  deriving Repr, DecidableEq

def hread (h : ListHeap) (r : Nat) : List Nat :=
  (h.cells[r]?).getD []

def hwrite (h : ListHeap) (r : Nat) (v : List Nat) : ListHeap :=
  ⟨h.cells.set r v⟩

def halloc (h : ListHeap) (v : List Nat) : ListHeap × Nat :=
  (⟨h.cells ++ [v]⟩, h.cells.length)

/-- `SessionTree.get_roots` on the heap: `return self.root_nodes.copy()` —
read the tree's list object at `rootRef`, allocate a fresh copy. -/
def get_roots_heap (h : ListHeap) (rootRef : Nat) : ListHeap × Nat :=
  halloc h (hread h rootRef)

/-- `SessionTree.get_children` on the heap:
`return session.children.copy()`. -/
def get_children_heap (h : ListHeap) (childRef : Nat) : ListHeap × Nat :=
  halloc h (hread h childRef)

/-! ## Title derivation (`models/session.py`)

Python string operations are embedded on character lists:
`splitSlash` is `path.split("/")`, `joinSlash` is `"/".join`,
`splitFirstColonSpace` is the combination of `": " in title` and
`title.split(": ", 1)` (leftmost occurrence), and `pyStrip` is `str.strip()`
(ASCII whitespace; the titles concerned contain at most spaces). -/

def splitSlash : List Char → List (List Char)
  | [] => [[]]
  | ch :: rest =>
      match splitSlash rest with
      | [] => [[]]
      | seg :: segs =>
          if ch = '/' then [] :: seg :: segs else (ch :: seg) :: segs

def joinSlash : List (List Char) → List Char
  | [] => []
  | [p] => p
  | p :: q :: ps => p ++ '/' :: joinSlash (q :: ps)

def splitFirstColonSpace : List Char → Option (List Char × List Char)
  | [] => none
  | ':' :: ' ' :: rest => some ([], rest)
  | ch :: rest =>
      match splitFirstColonSpace rest with
      | none => none
      | some (a, b) => some (ch :: a, b)

def pyStrip (xs : List Char) : List Char :=
  ((xs.dropWhile Char.isWhitespace).reverse.dropWhile Char.isWhitespace).reverse

/-- `TerminalSession._get_short_path_title`: the last one or two
`/`-separated components of a path (the path itself when empty or `"/"`,
`"/"` when it has no nonempty component). -/
def get_short_path_title (path : String) : String :=
  if path = "" ∨ path = "/" then path
  else
    let parts := (splitSlash path.data).filter (fun p => !p.isEmpty)
    if parts.length = 0 then "/"
    else if parts.length = 1 then String.mk (parts.headD [])
    else String.mk (joinSlash (parts.drop (parts.length - 2)))

/-- `TerminalSession.parse_terminal_title` for a session whose working
directory is `cwd`: empty title falls back to the short cwd; a title
containing `": "` is split at the first occurrence into `user_host` and
`path` (both stripped) and rendered as `"<shortPath> (<user_host>)"`; any
other title is returned verbatim. -/
def parse_terminal_title (cwd : String) (terminal_title : String) : String :=
  if terminal_title = "" then get_short_path_title cwd
  else
    match splitFirstColonSpace terminal_title.data with
    | some (user_host, path) =>
        get_short_path_title (String.mk (pyStrip path))
          ++ " (" ++ String.mk (pyStrip user_host) ++ ")"
    | none => terminal_title

theorem alookup_ainsert {α : Type} (m : List (Nat × α)) (k : Nat) (v : α) (x : Nat) :
    alookup (ainsert m k v) x = if k = x then some v else alookup m x := by
  induction m with
  | nil => simp [ainsert, alookup]
  | cons hd tl ih =>
      obtain ⟨k', v'⟩ := hd
      simp only [ainsert]
      by_cases hk : k' = k
      · subst hk
        simp only [if_pos rfl, alookup]
        by_cases hx : k' = x <;> simp [hx]
      · simp only [if_neg hk, alookup]
        by_cases hx : k' = x
        · subst hx
          have hkx : ¬ k = k' := fun h => hk h.symm
          simp [hkx]
        · simp [hx, ih]

theorem alookup_aerase {α : Type} (m : List (Nat × α)) (k x : Nat) :
    alookup (aerase m k) x = if k = x then none else alookup m x := by
  induction m with
  | nil => simp [aerase, alookup]
  | cons hd tl ih =>
      obtain ⟨k', v'⟩ := hd
      simp only [aerase]
      by_cases hk : k' = k
      · subst hk
        rw [if_pos rfl, ih]
        by_cases hx : k' = x <;> simp [alookup, hx]
      · rw [if_neg hk]
        by_cases hx : k' = x
        · subst hx
          have hkx : ¬ k = k' := fun h => hk h.symm
          simp [alookup, hkx]
        · simp [alookup, hx, ih]

theorem alookup_eq_none_iff {α : Type} (m : List (Nat × α)) (x : Nat) :
    alookup m x = none ↔ x ∉ m.map Prod.fst := by
  induction m with
  | nil => simp [alookup]
  | cons hd tl ih =>
      obtain ⟨k', v'⟩ := hd
      by_cases hx : k' = x
      · subst hx
        simp [alookup]
      · simp only [alookup, if_neg hx, List.map_cons, List.mem_cons, ih]
        constructor
        · intro h hc
          rcases hc with h1 | h2
          · exact hx h1.symm
          · exact h h2
        · intro h h2
          exact h (Or.inr h2)

theorem iterChain_none (t : SessionTree) (n : Nat) : iterChain t n none = none := by
  induction n with
  | zero => rfl
  | succ n ih => simpa [iterChain] using ih

theorem iterChain_succ (t : SessionTree) (n : Nat) (x : Nat) :
    iterChain t (n + 1) (some x) = iterChain t n (stepParent t x) := rfl

theorem iterChain_add (t : SessionTree) (a b : Nat) (o : Option Nat) :
    iterChain t (a + b) o = iterChain t b (iterChain t a o) := by
  induction a generalizing o with
  | zero => simp [iterChain]
  | succ a ih =>
      have : a + 1 + b = (a + b) + 1 := by omega
      rw [this]
      show iterChain t (a + b) (o.bind (stepParent t)) = _
      rw [ih]
      rfl

theorem WF_empty : WF SessionTree.empty := by
  refine ⟨?_, ?_, ?_, ?_, ?_, ?_⟩
  · simp [SessionTree.empty]
  · intro x; simp [children, SessionTree.empty, alookup]
  · intro x; simp [SessionTree.empty, pm, alookup]
  · intro p c; simp [children, SessionTree.empty, pm, alookup]
  · intro c p h; simp [SessionTree.empty, pm, alookup] at h
  · intro x
    exact ⟨1, by simp [iterChain, stepParent, pm, SessionTree.empty, alookup]⟩

theorem stepParent_eq_none_of_untracked {t : SessionTree} {x : Nat}
    (h : pm t x = none) : stepParent t x = none := by
  simp [stepParent, h]

theorem termin_of_step_none {t : SessionTree} {x : Nat}
    (h : stepParent t x = none) : termin t x :=
  ⟨1, by simp [iterChain, Option.bind, h, iterChain_none]⟩

theorem no_self_parent {t : SessionTree} (hterm : ∀ x, termin t x) (s : Nat) :
    pm t s ≠ some (some s) := by
  intro h
  have hstep : stepParent t s = some s := by simp [stepParent, h]
  have hall : ∀ n, iterChain t n (some s) = some s := by
    intro n
    induction n with
    | zero => rfl
    | succ n ih => rw [iterChain_succ, hstep]; exact ih
  obtain ⟨n, hn⟩ := hterm s
  rw [hall n] at hn
  exact Option.noConfusion hn

theorem no_two_cycle {t : SessionTree} (hterm : ∀ x, termin t x) (s p : Nat)
    (hs : pm t s = some (some p)) (hp : pm t p = some (some s)) : False := by
  have hstep1 : stepParent t s = some p := by simp [stepParent, hs]
  have hstep2 : stepParent t p = some s := by simp [stepParent, hp]
  have hall : ∀ n, iterChain t n (some s) = some s ∨ iterChain t n (some s) = some p := by
    intro n
    induction n with
    | zero => exact Or.inl rfl
    | succ n ih =>
        have h1 : iterChain t (n + 1) (some s) = iterChain t 1 (iterChain t n (some s)) := by
          rw [← iterChain_add]
        rcases ih with h | h
        · right
          rw [h1, h]
          simp [iterChain, Option.bind, hstep1]
        · left
          rw [h1, h]
          simp [iterChain, Option.bind, hstep2]
  obtain ⟨n, hn⟩ := hterm s
  rcases hall n with h | h <;> rw [h] at hn <;> exact Option.noConfusion hn

/-! ## Closed forms for the adoption loop and for `remove_node` -/

theorem children_setChildren (t : SessionTree) (s : Nat) (l : List Nat) (x : Nat) :
    children (setChildren t s l) x = if s = x then l else children t x := by
  simp only [children, setChildren, alookup_ainsert]
  by_cases h : s = x <;> simp [h]

theorem foldAdopt_none (cs : List Nat) (t : SessionTree) :
    (cs.foldl (adoptOne none) t).root_nodes = t.root_nodes ++ cs
    ∧ (cs.foldl (adoptOne none) t).child_lists = t.child_lists
    ∧ ∀ x, pm (cs.foldl (adoptOne none) t) x =
        if x ∈ cs then some none else pm t x := by
  induction cs generalizing t with
  | nil => simp
  | cons c cs ih =>
      obtain ⟨ih1, ih2, ih3⟩ := ih (adoptOne none t c)
      refine ⟨?_, ?_, ?_⟩
      · rw [List.foldl_cons, ih1]
        simp [adoptOne]
      · rw [List.foldl_cons, ih2]
        rfl
      · intro x
        rw [List.foldl_cons, ih3 x]
        by_cases hx : x ∈ cs
        · simp [hx]
        · by_cases hxc : x = c
          · subst hxc
            simp [hx, adoptOne, pm, alookup_ainsert]
          · have hcx : ¬ c = x := fun h => hxc (Eq.symm h)
            have hmem : ¬ x ∈ c :: cs := by simp [hxc, hx]
            simp only [hx, if_false, hmem, if_false]
            simp [adoptOne, pm, alookup_ainsert, hcx]

theorem foldAdopt_some (p : Nat) (cs : List Nat) (t : SessionTree) :
    (cs.foldl (adoptOne (some p)) t).root_nodes = t.root_nodes
    ∧ (∀ x, children (cs.foldl (adoptOne (some p)) t) x =
        if p = x then children t p ++ cs else children t x)
    ∧ ∀ x, pm (cs.foldl (adoptOne (some p)) t) x =
        if x ∈ cs then some (some p) else pm t x := by
  induction cs generalizing t with
  | nil =>
      refine ⟨rfl, ?_, ?_⟩
      · intro x
        by_cases hx : p = x
        · subst hx
          simp
        · simp [hx]
      · intro x
        simp
  | cons c cs ih =>
      obtain ⟨ih1, ih2, ih3⟩ := ih (adoptOne (some p) t c)
      have hch : ∀ x, children (adoptOne (some p) t c) x =
          if p = x then children t p ++ [c] else children t x := by
        intro x
        show children (setChildren t p (children t p ++ [c])) x = _
        exact children_setChildren t p _ x
      refine ⟨?_, ?_, ?_⟩
      · rw [List.foldl_cons, ih1]
        rfl
      · intro x
        rw [List.foldl_cons, ih2 x, hch p, hch x]
        by_cases hx : p = x <;> simp [hx]
      · intro x
        rw [List.foldl_cons, ih3 x]
        by_cases hx : x ∈ cs
        · simp [hx]
        · by_cases hxc : x = c
          · subst hxc
            simp [hx, adoptOne, setChildren, pm, alookup_ainsert]
          · have hcx : ¬ c = x := fun h => hxc (Eq.symm h)
            have hmem : ¬ x ∈ c :: cs := by simp [hxc, hx]
            simp only [hx, if_false, hmem, if_false]
            simp [adoptOne, setChildren, pm, alookup_ainsert, hcx]

/-- Closed form of `remove_node` on a tracked root. -/
theorem remove_closed_none (t : SessionTree) (s : Nat)
    (h : pm t s = some none) :
    (remove_node t s).root_nodes = (t.root_nodes ++ children t s).erase s
    ∧ (∀ x, children (remove_node t s) x = if s = x then [] else children t x)
    ∧ ∀ x, pm (remove_node t s) x =
        if x = s then none
        else if x ∈ children t s then some none else pm t x := by
  have hdef : remove_node t s =
      (let cs := children t s
       let t1 := cs.foldl (adoptOne none) t
       let t2 := { t1 with root_nodes := t1.root_nodes.erase s }
       { t2 with child_lists := ainsert t2.child_lists s [],
                 parent_map := aerase t2.parent_map s }) := by
    unfold remove_node
    rw [h]
  obtain ⟨h1, h2, h3⟩ := foldAdopt_none (children t s) t
  refine ⟨?_, ?_, ?_⟩
  · rw [hdef]
    simp only [h1]
  · intro x
    rw [hdef]
    simp only [children, alookup_ainsert]
    by_cases hx : s = x
    · simp [hx]
    · simp only [if_neg hx]
      have := h2
      simp only [children] at *
      rw [this]
  · intro x
    rw [hdef]
    simp only [pm, alookup_aerase]
    by_cases hx : x = s
    · simp [hx]
    · have hsx : ¬ s = x := fun hh => hx (Eq.symm hh)
      simp only [if_neg hsx, if_neg hx]
      exact h3 x

/-- Closed form of `remove_node` on a tracked interior node. -/
theorem remove_closed_some (t : SessionTree) (s p : Nat)
    (h : pm t s = some (some p)) :
    (remove_node t s).root_nodes = t.root_nodes
    ∧ (∀ x, children (remove_node t s) x =
        if s = x then []
        else if p = x then (children t p ++ children t s).erase s
        else children t x)
    ∧ ∀ x, pm (remove_node t s) x =
        if x = s then none
        else if x ∈ children t s then some (some p) else pm t x := by
  have hdef : remove_node t s =
      (let cs := children t s
       let t1 := cs.foldl (adoptOne (some p)) t
       let t2 := setChildren t1 p ((children t1 p).erase s)
       { t2 with child_lists := ainsert t2.child_lists s [],
                 parent_map := aerase t2.parent_map s }) := by
    unfold remove_node
    rw [h]
  obtain ⟨h1, h2, h3⟩ := foldAdopt_some p (children t s) t
  refine ⟨?_, ?_, ?_⟩
  · rw [hdef]
    simpa [setChildren] using h1
  · intro x
    rw [hdef]
    simp only [children, setChildren, alookup_ainsert]
    by_cases hx : s = x
    · simp [hx]
    · simp only [if_neg hx]
      by_cases hpx : p = x
      · subst hpx
        have := h2 p
        simp only [if_pos rfl, children] at this
        simp [this]
      · have := h2 x
        simp only [if_neg hpx, children] at this
        simp [hpx, this]
  · intro x
    rw [hdef]
    simp only [pm, setChildren, alookup_aerase]
    by_cases hx : x = s
    · simp [hx]
    · have hsx : ¬ s = x := fun hh => hx (Eq.symm hh)
      simp only [if_neg hsx, if_neg hx]
      exact h3 x

/-! ## Preservation of well-formedness -/

theorem chain_transfer (t t' : SessionTree) (s : Nat)
    (hag : ∀ x, x ≠ s → stepParent t' x = stepParent t x)
    (hns : ∀ x, stepParent t x ≠ some s) :
    ∀ n x, x ≠ s → iterChain t n (some x) = none → iterChain t' n (some x) = none := by
  intro n
  induction n with
  | zero =>
      intro x _ h
      exact absurd h (by simp [iterChain])
  | succ n ih =>
      intro x hx h
      rw [iterChain_succ] at h ⊢
      rw [hag x hx]
      cases hstep : stepParent t x with
      | none =>
          rw [iterChain_none]
      | some y =>
          have hy : y ≠ s := by
            intro hys
            exact hns x (hys ▸ hstep)
          rw [hstep] at h
          exact ih y hy h

theorem chain_transfer_remove (t t' : SessionTree) (s : Nat) (par : Option Nat)
    (hpm : pm t s = some par)
    (hcs : ∀ c, c ∈ children t s ↔ pm t c = some (some s))
    (hstep : ∀ x, pm t' x =
      if x = s then none
      else if x ∈ children t s then
        (match par with | none => some none | some p => some (some p))
      else pm t x) :
    ∀ n x, iterChain t n (some x) = none → termin t' x := by
  intro n
  induction n using Nat.strong_induction_on with
  | _ n ih =>
      intro x hx
      by_cases hxs : x = s
      · subst hxs
        apply termin_of_step_none
        have hx' : pm t' x = none := by rw [hstep x]; simp
        simp [stepParent, hx']
      · by_cases hxc : x ∈ children t s
        · cases par with
          | none =>
              apply termin_of_step_none
              have hx' : pm t' x = some none := by rw [hstep x]; simp [hxs, hxc]
              simp [stepParent, hx']
          | some p =>
              have hpx : pm t x = some (some s) := (hcs x).mp hxc
              have hsx : stepParent t x = some s := by simp [stepParent, hpx]
              have hss : stepParent t s = some p := by simp [stepParent, hpm]
              match n, hx with
              | 0, hx => exact absurd hx (by simp [iterChain])
              | 1, hx =>
                  exact absurd hx (by simp [iterChain, Option.bind, hsx])
              | (m + 2), hx =>
                  have h2 : iterChain t m (some p) = none := by
                    have e1 : iterChain t (m + 2) (some x) = iterChain t (m + 1) (some s) := by
                      rw [iterChain_succ, hsx]
                    have e2 : iterChain t (m + 1) (some s) = iterChain t m (some p) := by
                      rw [iterChain_succ, hss]
                    rw [e1, e2] at hx
                    exact hx
                  obtain ⟨k, hk⟩ := ih m (by omega) p h2
                  have hx' : stepParent t' x = some p := by
                    have hh : pm t' x = some (some p) := by rw [hstep x]; simp [hxs, hxc]
                    simp [stepParent, hh]
                  exact ⟨k + 1, by rw [iterChain_succ, hx', hk]⟩
        · have hpm' : pm t' x = pm t x := by rw [hstep x]; simp [hxs, hxc]
          have hagx : stepParent t' x = stepParent t x := by
            unfold stepParent
            rw [hpm']
          cases hstep2 : stepParent t x with
          | none =>
              exact termin_of_step_none (hagx.trans hstep2)
          | some y =>
              match n, hx with
              | 0, hx => exact absurd hx (by simp [iterChain])
              | m + 1, hx =>
                  have hy : iterChain t m (some y) = none := by
                    rw [iterChain_succ, hstep2] at hx
                    exact hx
                  obtain ⟨k, hk⟩ := ih m (by omega) y hy
                  exact ⟨k + 1, by rw [iterChain_succ, hagx, hstep2, hk]⟩

theorem pm_eq_none_of_not_tracked {t : SessionTree} {s : Nat}
    (h : ¬ tracked t s) : pm t s = none := by
  by_contra hc
  exact h hc

theorem not_mem_children_of_untracked {t : SessionTree} {s : Nat}
    (hwf : WF t) (h : pm t s = none) : ∀ q, s ∉ children t q := by
  intro q hq
  have := (hwf.childIff q s).mp hq
  rw [h] at this
  exact Option.noConfusion this

theorem step_ne_some_of_untracked {t : SessionTree} {s : Nat}
    (hwf : WF t) (h : pm t s = none) : ∀ x, stepParent t x ≠ some s := by
  intro x hx
  unfold stepParent at hx
  cases hc : pm t x with
  | none => rw [hc] at hx; exact Option.noConfusion hx
  | some v =>
      cases v with
      | none => rw [hc] at hx; exact Option.noConfusion hx
      | some p =>
          rw [hc] at hx
          have hp : p = s := by
            injection hx
          subst hp
          exact hwf.parentTracked x p hc h

/-- `add_node` preserves well-formedness when the inserted session is fresh
and the parent (if given) is tracked. -/
theorem WF_add (t : SessionTree) (s : Nat) (parent : Option Nat)
    (hwf : WF t) (hs : ¬ tracked t s)
    (hp : ∀ q, parent = some q → tracked t q) :
    WF (add_node t s parent) := by
  have hsn : pm t s = none := pm_eq_none_of_not_tracked hs
  have hsnr : s ∉ t.root_nodes := by
    intro hmem
    rw [(hwf.rootIff s).mp hmem] at hsn
    exact Option.noConfusion hsn
  have hsnc : ∀ q, s ∉ children t q := not_mem_children_of_untracked hwf hsn
  have hns : ∀ x, stepParent t x ≠ some s := step_ne_some_of_untracked hwf hsn
  cases parent with
  | none =>
      have hroots : (add_node t s none).root_nodes = t.root_nodes ++ [s] := rfl
      have hch : ∀ x, children (add_node t s none) x = children t x := fun _ => rfl
      have hpm : ∀ x, pm (add_node t s none) x =
          if s = x then some none else pm t x := by
        intro x
        show alookup (ainsert t.parent_map s none) x = _
        exact alookup_ainsert _ _ _ _
      refine ⟨?_, ?_, ?_, ?_, ?_, ?_⟩
      · rw [hroots]
        simp [List.nodup_append, hwf.rootsNodup, List.Disjoint]
        intro a ha hc
        subst hc
        exact hsnr ha
      · intro x
        rw [hch x]
        exact hwf.childNodup x
      · intro x
        rw [hroots, hpm x]
        by_cases hx : s = x
        · subst hx
          simp
        · have hxs : x ≠ s := fun h => hx h.symm
          simp [hx, List.mem_append, hxs, hwf.rootIff x]
      · intro p c
        rw [hch p, hpm c]
        by_cases hc : s = c
        · subst hc
          simp [hsnc p]
        · simp [hc, hwf.childIff p c]
      · intro c p hcp
        rw [hpm c] at hcp
        by_cases hc : s = c
        · simp [hc] at hcp
        · rw [if_neg hc] at hcp
          have := hwf.parentTracked c p hcp
          unfold tracked at this ⊢
          rw [hpm p]
          by_cases hps : s = p
          · simp [hps]
          · rw [if_neg hps]
            exact this
      · intro x
        have hag : ∀ y, y ≠ s → stepParent (add_node t s none) y = stepParent t y := by
          intro y hy
          unfold stepParent
          rw [hpm y, if_neg (fun h => hy h.symm)]
        by_cases hx : x = s
        · apply termin_of_step_none
          have h1 : pm (add_node t s none) x = some none := by
            rw [hpm x, if_pos hx.symm]
          unfold stepParent
          rw [h1]
        · obtain ⟨n, hn⟩ := hwf.termin x
          exact ⟨n, chain_transfer t _ s hag hns n x hx hn⟩
  | some q =>
      have hq := hp q rfl
      have hqs : q ≠ s := fun h => hs (h ▸ hq)
      have hif : (if s ∈ children t q then t else setChildren t q (children t q ++ [s]))
          = setChildren t q (children t q ++ [s]) := if_neg (hsnc q)
      have hform : add_node t s (some q) =
          { setChildren t q (children t q ++ [s]) with
            parent_map := ainsert t.parent_map s (some q) } := by
        show { (if s ∈ children t q then t else setChildren t q (children t q ++ [s])) with
               parent_map := ainsert (if s ∈ children t q then t
                 else setChildren t q (children t q ++ [s])).parent_map s (some q) } = _
        rw [hif]
        rfl
      have hroots : (add_node t s (some q)).root_nodes = t.root_nodes := by
        rw [hform]; rfl
      have hch : ∀ x, children (add_node t s (some q)) x =
          if q = x then children t q ++ [s] else children t x := by
        intro x
        rw [hform]
        show children (setChildren t q (children t q ++ [s])) x = _
        exact children_setChildren _ _ _ _
      have hpm : ∀ x, pm (add_node t s (some q)) x =
          if s = x then some (some q) else pm t x := by
        intro x
        rw [hform]
        show alookup (ainsert t.parent_map s (some q)) x = _
        exact alookup_ainsert _ _ _ _
      refine ⟨?_, ?_, ?_, ?_, ?_, ?_⟩
      · rw [hroots]
        exact hwf.rootsNodup
      · intro x
        rw [hch x]
        by_cases hx : q = x
        · subst hx
          simp [List.nodup_append, hwf.childNodup q, hsnc q]
        · simp [hx, hwf.childNodup x]
      · intro x
        rw [hroots, hpm x]
        by_cases hx : s = x
        · subst hx
          simp [hsnr]
        · simp [hx, hwf.rootIff x]
      · intro p c
        rw [hch p, hpm c]
        by_cases hc : s = c
        · subst hc
          by_cases hpq : q = p
          · subst hpq
            simp [hsnc q]
          · have : ¬ p = q := fun h => hpq h.symm
            simp [hpq, hsnc p, this]
        · rw [if_neg hc]
          by_cases hpq : q = p
          · subst hpq
            have hcs : c ≠ s := fun h => hc h.symm
            simp [hcs, hwf.childIff q c]
          · simp [hpq, hwf.childIff p c]
      · intro c p hcp
        rw [hpm c] at hcp
        unfold tracked
        rw [hpm p]
        by_cases hc : s = c
        · rw [if_pos hc] at hcp
          have hqp : q = p := by
            injection hcp with h1
            injection h1 with h2
          have hps : ¬ s = p := by
            rw [← hqp]
            exact fun h => hqs (Eq.symm h)
          rw [if_neg hps, ← hqp]
          exact hq
        · rw [if_neg hc] at hcp
          have htr := hwf.parentTracked c p hcp
          by_cases hps : s = p
          · rw [if_pos hps]
            simp
          · rw [if_neg hps]
            exact htr
      · intro x
        have hag : ∀ y, y ≠ s → stepParent (add_node t s (some q)) y = stepParent t y := by
          intro y hy
          unfold stepParent
          rw [hpm y, if_neg (fun h => hy h.symm)]
        by_cases hx : x = s
        · have hstep : stepParent (add_node t s (some q)) x = some q := by
            have h1 : pm (add_node t s (some q)) x = some (some q) := by
              rw [hpm x, if_pos hx.symm]
            unfold stepParent
            rw [h1]
          obtain ⟨n, hn⟩ := hwf.termin q
          have hq' := chain_transfer t _ s hag hns n q hqs hn
          exact ⟨n + 1, by rw [iterChain_succ, hstep, hq']⟩
        · obtain ⟨n, hn⟩ := hwf.termin x
          exact ⟨n, chain_transfer t _ s hag hns n x hx hn⟩

/-- `remove_node` preserves well-formedness, for every argument (untracked
sessions are a no-op). -/
theorem WF_remove (t : SessionTree) (s : Nat) (hwf : WF t) :
    WF (remove_node t s) := by
  cases hpm : pm t s with
  | none =>
      have heq : remove_node t s = t := by
        unfold remove_node
        rw [hpm]
      rw [heq]
      exact hwf
  | some par =>
      cases par with
      | none =>
          obtain ⟨h1, h2, h3⟩ := remove_closed_none t s hpm
          have hscs : s ∉ children t s := by
            intro h
            have h' := (hwf.childIff s s).mp h
            rw [hpm] at h'
            simp at h'
          have hsroot : s ∈ t.root_nodes := (hwf.rootIff s).mpr hpm
          have hcs_pm : ∀ c ∈ children t s, pm t c = some (some s) :=
            fun c hc => (hwf.childIff s c).mp hc
          have hcs_not_root : ∀ c ∈ children t s, c ∉ t.root_nodes := by
            intro c hc hcr
            have h' := (hwf.rootIff c).mp hcr
            rw [hcs_pm c hc] at h'
            simp at h'
          have hroots' : (remove_node t s).root_nodes =
              t.root_nodes.erase s ++ children t s := by
            rw [h1]
            exact List.erase_append_left _ hsroot
          refine ⟨?_, ?_, ?_, ?_, ?_, ?_⟩
          · rw [hroots', List.nodup_append]
            refine ⟨hwf.rootsNodup.sublist (List.erase_sublist s t.root_nodes), ?_, ?_⟩
            · exact hwf.childNodup s
            · intro a ha hb
              exact hcs_not_root a hb (List.mem_of_mem_erase ha)
          · intro x
            rw [h2 x]
            by_cases hx : s = x
            · simp [hx]
            · rw [if_neg hx]
              exact hwf.childNodup x
          · intro x
            rw [hroots', h3 x]
            by_cases hx : x = s
            · rw [if_pos hx, hx]
              simp [List.mem_append, hwf.rootsNodup.not_mem_erase, hscs]
            · rw [if_neg hx]
              by_cases hxc : x ∈ children t s
              · rw [if_pos hxc]
                simp [List.mem_append, hxc]
              · rw [if_neg hxc, List.mem_append]
                rw [List.mem_erase_of_ne hx]
                constructor
                · rintro (h | h)
                  · exact (hwf.rootIff x).mp h
                  · exact absurd h hxc
                · intro h
                  exact Or.inl ((hwf.rootIff x).mpr h)
          · intro q c
            rw [h2 q, h3 c]
            by_cases hq : s = q
            · rw [if_pos hq]
              simp only [List.not_mem_nil, false_iff]
              intro hcontra
              by_cases hc : c = s
              · rw [if_pos hc] at hcontra
                exact Option.noConfusion hcontra
              · rw [if_neg hc] at hcontra
                by_cases hcc : c ∈ children t s
                · rw [if_pos hcc] at hcontra
                  simp at hcontra
                · rw [if_neg hcc] at hcontra
                  rw [← hq] at hcontra
                  exact hcc ((hwf.childIff s c).mpr hcontra)
            · rw [if_neg hq]
              by_cases hc : c = s
              · rw [hc, if_pos rfl]
                constructor
                · intro hmem
                  have h5 := (hwf.childIff q s).mp hmem
                  rw [hpm] at h5
                  exact absurd h5 (by simp)
                · intro h6
                  exact absurd h6 (by simp)
              · rw [if_neg hc]
                by_cases hcc : c ∈ children t s
                · rw [if_pos hcc]
                  have hcf : c ∉ children t q := by
                    intro hmem
                    have h7 := (hwf.childIff q c).mp hmem
                    have h8 := (hwf.childIff s c).mp hcc
                    rw [h7] at h8
                    injection h8 with h9
                    injection h9 with h10
                    exact hq h10.symm
                  simp [hcf]
                · rw [if_neg hcc]
                  exact hwf.childIff q c
          · intro c q hcp
            rw [h3 c] at hcp
            by_cases hc : c = s
            · rw [if_pos hc] at hcp
              exact Option.noConfusion hcp
            · rw [if_neg hc] at hcp
              by_cases hcc : c ∈ children t s
              · rw [if_pos hcc] at hcp
                simp at hcp
              · rw [if_neg hcc] at hcp
                have htr := hwf.parentTracked c q hcp
                have hqs : q ≠ s := by
                  intro h
                  rw [h] at hcp
                  exact hcc ((hwf.childIff s c).mpr hcp)
                unfold tracked
                rw [h3 q, if_neg hqs]
                by_cases hqc : q ∈ children t s
                · rw [if_pos hqc]
                  simp
                · rw [if_neg hqc]
                  exact htr
          · intro x
            obtain ⟨n, hn⟩ := hwf.termin x
            exact chain_transfer_remove t _ s none hpm
              (fun c => hwf.childIff s c) h3 n x hn
      | some p =>
          obtain ⟨h1, h2, h3⟩ := remove_closed_some t s p hpm
          have hps : p ≠ s := by
            intro h
            rw [h] at hpm
            exact no_self_parent hwf.termin s hpm
          have hscs : s ∉ children t s := by
            intro h
            have h' := (hwf.childIff s s).mp h
            exact no_self_parent hwf.termin s h'
          have hpcs : p ∉ children t s := by
            intro h
            have h' := (hwf.childIff s p).mp h
            exact no_two_cycle hwf.termin s p hpm h'
          have hsp : s ∈ children t p := (hwf.childIff p s).mpr hpm
          have hsnr : s ∉ t.root_nodes := by
            intro h
            have h' := (hwf.rootIff s).mp h
            rw [hpm] at h'
            simp at h'
          have hcs_pm : ∀ c ∈ children t s, pm t c = some (some s) :=
            fun c hc => (hwf.childIff s c).mp hc
          have hchp : ∀ x, children (remove_node t s) x =
              if s = x then []
              else if p = x then (children t p).erase s ++ children t s
              else children t x := by
            intro x
            rw [h2 x, List.erase_append_left _ hsp]
          refine ⟨?_, ?_, ?_, ?_, ?_, ?_⟩
          · rw [h1]
            exact hwf.rootsNodup
          · intro x
            rw [hchp x]
            by_cases hx : s = x
            · simp [hx]
            · rw [if_neg hx]
              by_cases hpx : p = x
              · rw [if_pos hpx, List.nodup_append]
                refine ⟨(hwf.childNodup p).sublist (List.erase_sublist s _), hwf.childNodup s, ?_⟩
                intro a ha hb
                have h7 := (hwf.childIff p a).mp (List.mem_of_mem_erase ha)
                have h8 := (hwf.childIff s a).mp hb
                rw [h7] at h8
                injection h8 with h9
                injection h9 with h10
                exact hps h10
              · rw [if_neg hpx]
                exact hwf.childNodup x
          · intro x
            rw [h1, h3 x]
            by_cases hx : x = s
            · rw [if_pos hx, hx]
              simp [hsnr]
            · rw [if_neg hx]
              by_cases hxc : x ∈ children t s
              · rw [if_pos hxc]
                have hxr : x ∉ t.root_nodes := by
                  intro h
                  have h' := (hwf.rootIff x).mp h
                  rw [hcs_pm x hxc] at h'
                  simp at h'
                simp [hxr]
              · rw [if_neg hxc]
                exact hwf.rootIff x
          · intro q c
            rw [hchp q, h3 c]
            by_cases hq : s = q
            · rw [if_pos hq]
              simp only [List.not_mem_nil, false_iff]
              intro hcontra
              by_cases hc : c = s
              · rw [if_pos hc] at hcontra
                exact Option.noConfusion hcontra
              · rw [if_neg hc] at hcontra
                by_cases hcc : c ∈ children t s
                · rw [if_pos hcc] at hcontra
                  injection hcontra with h9
                  injection h9 with h10
                  rw [← hq] at h10
                  exact hps h10
                · rw [if_neg hcc] at hcontra
                  rw [← hq] at hcontra
                  exact hcc ((hwf.childIff s c).mpr hcontra)
            · rw [if_neg hq]
              by_cases hpq : p = q
              · rw [if_pos hpq]
                by_cases hc : c = s
                · rw [hc, if_pos rfl]
                  rw [List.mem_append]
                  constructor
                  · rintro (h | h)
                    · exact absurd h (hwf.childNodup p).not_mem_erase
                    · exact absurd h hscs
                  · intro h6
                    exact absurd h6 (by simp)
                · rw [if_neg hc]
                  by_cases hcc : c ∈ children t s
                  · rw [if_pos hcc]
                    rw [List.mem_append]
                    constructor
                    · intro _
                      rw [hpq]
                    · intro _
                      exact Or.inr hcc
                  · rw [if_neg hcc]
                    rw [List.mem_append, List.mem_erase_of_ne hc]
                    rw [← hpq]
                    constructor
                    · rintro (h | h)
                      · exact (hwf.childIff p c).mp h
                      · exact absurd h hcc
                    · intro h
                      exact Or.inl ((hwf.childIff p c).mpr h)
              · rw [if_neg hpq]
                by_cases hc : c = s
                · rw [hc, if_pos rfl]
                  constructor
                  · intro hmem
                    have h5 := (hwf.childIff q s).mp hmem
                    rw [hpm] at h5
                    injection h5 with h9
                    injection h9 with h10
                    exact absurd h10 (fun h => hpq h)
                  · intro h6
                    exact absurd h6 (by simp)
                · rw [if_neg hc]
                  by_cases hcc : c ∈ children t s
                  · rw [if_pos hcc]
                    constructor
                    · intro hmem
                      have h7 := (hwf.childIff q c).mp hmem
                      rw [hcs_pm c hcc] at h7
                      injection h7 with h9
                      injection h9 with h10
                      exact absurd h10 hq
                    · intro h6
                      injection h6 with h9
                      injection h9 with h10
                      exact absurd h10 hpq
                  · rw [if_neg hcc]
                    exact hwf.childIff q c
          · intro c q hcp
            rw [h3 c] at hcp
            by_cases hc : c = s
            · rw [if_pos hc] at hcp
              exact Option.noConfusion hcp
            · rw [if_neg hc] at hcp
              by_cases hcc : c ∈ children t s
              · rw [if_pos hcc] at hcp
                have hqp : p = q := by
                  injection hcp with h9
                  injection h9 with h10
                have htrp : tracked t p := hwf.parentTracked s p hpm
                unfold tracked
                rw [h3 q, ← hqp, if_neg hps]
                rw [if_neg hpcs]
                exact htrp
              · rw [if_neg hcc] at hcp
                have htr := hwf.parentTracked c q hcp
                have hqs : q ≠ s := by
                  intro h
                  rw [h] at hcp
                  exact hcc ((hwf.childIff s c).mpr hcp)
                unfold tracked
                rw [h3 q, if_neg hqs]
                by_cases hqc : q ∈ children t s
                · rw [if_pos hqc]
                  simp
                · rw [if_neg hqc]
                  exact htr
          · intro x
            obtain ⟨n, hn⟩ := hwf.termin x
            exact chain_transfer_remove t _ s (some p) hpm
              (fun c => hwf.childIff s c) h3 n x hn

theorem tracked_iff_mem_all (t : SessionTree) (x : Nat) :
    tracked t x ↔ x ∈ get_all_sessions t := by
  unfold tracked get_all_sessions pm
  constructor
  · intro h
    by_contra hc
    exact h ((alookup_eq_none_iff _ _).mpr hc)
  · intro h hc
    exact (alookup_eq_none_iff _ _).mp hc h

theorem acyclic_of_termin {t : SessionTree} {x : Nat} (h : termin t x) :
    ∀ n, 0 < n → iterChain t n (some x) ≠ some x := by
  intro n hn hcyc
  have hmul : ∀ k, iterChain t (n * k) (some x) = some x := by
    intro k
    induction k with
    | zero => simp [iterChain]
    | succ k ih =>
        have : n * (k + 1) = n * k + n := by ring
        rw [this, iterChain_add, ih, hcyc]
  obtain ⟨m, hm⟩ := h
  have hge : n * (m + 1) = m + (n * (m + 1) - m) := by
    have : m + 1 ≤ n * (m + 1) := Nat.le_mul_of_pos_left _ hn
    omega
  have : iterChain t (n * (m + 1)) (some x) = none := by
    rw [hge, iterChain_add, hm, iterChain_none]
  rw [hmul (m + 1)] at this
  exact Option.noConfusion this

theorem reachable_of_tracked {t : SessionTree} (hwf : WF t) :
    ∀ n x, iterChain t n (some x) = none → tracked t x →
      ReachableFromRoots t x := by
  intro n
  induction n using Nat.strong_induction_on with
  | _ n ih =>
      intro x hchain htr
      cases hv : pm t x with
      | none => exact absurd hv htr
      | some v =>
          cases v with
          | none => exact ReachableFromRoots.root ((hwf.rootIff x).mpr hv)
          | some q =>
              have hmem : x ∈ children t q := (hwf.childIff q x).mpr hv
              have hqt : tracked t q := hwf.parentTracked x q hv
              have hstep : stepParent t x = some q := by
                simp [stepParent, hv]
              match n, hchain with
              | 0, hchain => exact absurd hchain (by simp [iterChain])
              | m + 1, hchain =>
                  have hq : iterChain t m (some q) = none := by
                    rw [iterChain_succ, hstep] at hchain
                    exact hchain
                  exact ReachableFromRoots.child (ih m (by omega) q hq hqt) hmem

theorem forestInvariant_of_WF (t : SessionTree) (hwf : WF t) :
    ForestInvariant t := by
  refine ⟨?_, ?_, ⟨hwf.rootsNodup, hwf.rootIff⟩, ?_, ?_⟩
  · intro x
    rw [← tracked_iff_mem_all]
    constructor
    · intro htr
      obtain ⟨n, hn⟩ := hwf.termin x
      exact reachable_of_tracked hwf n x hn htr
    · intro hr
      induction hr with
      | root h =>
          unfold tracked
          rw [(hwf.rootIff _).mp h]
          simp
      | child _ hc _ =>
          unfold tracked
          rw [(hwf.childIff _ _).mp hc]
          simp
  · intro p _
    exact ⟨hwf.childNodup p, hwf.childIff p⟩
  · intro c p q hp hq
    have h1 := (hwf.childIff p c).mp hp
    have h2 := (hwf.childIff q c).mp hq
    rw [h1] at h2
    injection h2 with h3
    injection h3 with h4
  · intro x
    exact acyclic_of_termin (hwf.termin x)

theorem WF_applyOp (t : SessionTree) (op : Op) (hwf : WF t)
    (hop : wfOp t op = true) : WF (applyOp t op) := by
  cases op with
  | add s p =>
      simp only [wfOp, Bool.and_eq_true, Bool.not_eq_true'] at hop
      refine WF_add t s p hwf ?_ ?_
      · intro hc
        unfold tracked at hc
        cases hps : pm t s with
        | none => exact hc hps
        | some v =>
            have h1 := hop.1
            rw [hps] at h1
            simp at h1
      · intro q hq
        obtain ⟨_, h2⟩ := hop
        rw [hq] at h2
        have h2' : (pm t q).isSome = true := by simpa using h2
        unfold tracked
        intro hc
        rw [hc] at h2'
        simp at h2'
  | remove s => exact WF_remove t s hwf

theorem WF_applyOps (t : SessionTree) (ops : List Op) (hwf : WF t)
    (h : wfOps t ops = true) : ∀ n, WF (applyOps t (ops.take n)) := by
  induction ops generalizing t with
  | nil =>
      intro n
      simpa [applyOps] using hwf
  | cons op rest ih =>
      intro n
      simp only [wfOps, Bool.and_eq_true] at h
      cases n with
      | zero => simpa [applyOps] using hwf
      | succ m =>
          have hstep := WF_applyOp t op hwf h.1
          have := ih (applyOp t op) hstep h.2 m
          simpa [applyOps] using this

/-- C2: for every well-formed sequence of `add_node`/`remove_node` operations
starting from the empty tree, the forest invariants hold at every point:
tracked sessions = sessions reachable from the roots via `children`, children
lists correspond exactly to the parent map, `root_nodes` are exactly the
null-mapped sessions, each session has at most one parent, and the parent
relation is acyclic. -/
theorem C2_forest_invariants (ops : List Op)
    (h : wfOps SessionTree.empty ops = true) :
    ∀ n, ForestInvariant (applyOps SessionTree.empty (ops.take n)) :=
  fun n => forestInvariant_of_WF _ (WF_applyOps SessionTree.empty ops WF_empty h n)

/-- Witness for C2 at a concrete operation sequence: add a root, add a child
under it, add a grandchild, then remove the middle session. -/
theorem C2_forest_invariants_witness :
    wfOps SessionTree.empty
      [Op.add 1 none, Op.add 2 (some 1), Op.add 3 (some 2), Op.remove 2] = true
    ∧ ∀ n, ForestInvariant (applyOps SessionTree.empty
        (([Op.add 1 none, Op.add 2 (some 1), Op.add 3 (some 2),
           Op.remove 2]).take n)) :=
  ⟨by decide, C2_forest_invariants _ (by decide)⟩

/-! ## Claim C1: adoption re-parents exactly the immediate children -/

/-- C1: removing a tracked session `s` re-parents exactly its immediate
children, in original order, appended after the pre-existing entries of the
new container (the roots when `s` was a root, the former parent's children
otherwise), and sets their parent-map entry to `s`'s former parent; children
lists of every other session (in particular of grandchildren's parents) are
untouched, as are the parent-map entries of all other sessions; afterwards `s`
has an empty children list, no parent-map entry, and is absent from
`get_all_sessions`. -/
theorem C1_remove_adoption (t : SessionTree) (s : Nat) (par : Option Nat)
    (hpm : pm t s = some par)
    (hself : s ∉ children t s)
    (hint : ∀ p, par = some p → s ∈ children t p) :
    (∀ c ∈ children t s, pm (remove_node t s) c = some par)
    ∧ (par = none → (remove_node t s).root_nodes
        = t.root_nodes.erase s ++ children t s)
    ∧ (∀ p, par = some p →
        children (remove_node t s) p = (children t p).erase s ++ children t s
        ∧ (remove_node t s).root_nodes = t.root_nodes)
    ∧ (∀ x, x ≠ s → par ≠ some x → children (remove_node t s) x = children t x)
    ∧ (∀ y, y ∉ children t s → y ≠ s → pm (remove_node t s) y = pm t y)
    ∧ children (remove_node t s) s = []
    ∧ pm (remove_node t s) s = none
    ∧ s ∉ get_all_sessions (remove_node t s) := by
  cases par with
  | none =>
      obtain ⟨h1, h2, h3⟩ := remove_closed_none t s hpm
      refine ⟨?_, ?_, ?_, ?_, ?_, ?_, ?_, ?_⟩
      · intro c hc
        have hcs : ¬ c = s := fun h => hself (h ▸ hc)
        rw [h3 c, if_neg hcs, if_pos hc]
      · intro _
        rw [h1]
        by_cases hr : s ∈ t.root_nodes
        · exact List.erase_append_left _ hr
        · rw [List.erase_append_right _ hr, List.erase_of_not_mem hself,
              List.erase_of_not_mem hr]
      · intro p hp
        exact absurd hp (by simp)
      · intro x hx _
        rw [h2 x, if_neg (fun h => hx h.symm)]
      · intro y hy hys
        rw [h3 y, if_neg hys, if_neg hy]
      · rw [h2 s, if_pos rfl]
      · rw [h3 s, if_pos rfl]
      · intro hmem
        have htr := (tracked_iff_mem_all _ s).mpr hmem
        exact htr (by rw [h3 s, if_pos rfl])
  | some p =>
      have hsp : s ∈ children t p := hint p rfl
      have hps : ¬ p = s := fun h => hself (h ▸ hsp)
      obtain ⟨h1, h2, h3⟩ := remove_closed_some t s p hpm
      refine ⟨?_, ?_, ?_, ?_, ?_, ?_, ?_, ?_⟩
      · intro c hc
        have hcs : ¬ c = s := fun h => hself (h ▸ hc)
        rw [h3 c, if_neg hcs, if_pos hc]
      · intro h
        exact absurd h (by simp)
      · intro q hq
        have hq' : p = q := by
          injection hq with h'
        subst hq'
        constructor
        · rw [h2 p, if_neg (fun h => hps (Eq.symm h)), if_pos rfl]
          exact List.erase_append_left _ hsp
        · exact h1
      · intro x hx hpx
        have hpx' : ¬ p = x := fun h => hpx (by rw [h])
        rw [h2 x, if_neg (fun h => hx h.symm), if_neg hpx']
      · intro y hy hys
        rw [h3 y, if_neg hys, if_neg hy]
      · rw [h2 s, if_pos rfl]
      · rw [h3 s, if_pos rfl]
      · intro hmem
        have htr := (tracked_iff_mem_all _ s).mpr hmem
        exact htr (by rw [h3 s, if_pos rfl])

/-- Witness for C1: in the chain 1 → 2 → 3 (with 1 a root), removing the
interior session 2 hands child 3 to grandparent 1. -/
theorem C1_remove_adoption_witness :
    pm (SessionTree.mk [1] [(1, none), (2, some 1), (3, some 2)]
        [(1, [2]), (2, [3])]) 2 = some (some 1)
    ∧ (2 : Nat) ∉ children (SessionTree.mk [1] [(1, none), (2, some 1), (3, some 2)]
        [(1, [2]), (2, [3])]) 2
    ∧ pm (remove_node (SessionTree.mk [1] [(1, none), (2, some 1), (3, some 2)]
        [(1, [2]), (2, [3])]) 2) 3 = some (some 1) :=
  ⟨by decide, by decide,
    (C1_remove_adoption
      (SessionTree.mk [1] [(1, none), (2, some 1), (3, some 2)] [(1, [2]), (2, [3])])
      2 (some 1) (by decide) (by decide)
      (by intro p hp; cases hp; decide)).1 3 (by decide)⟩

/-! ## Helper lemmas about the manager operations -/

theorem select_session_fields (m : SessionManager) (s : Nat) :
    (select_session m s).tree = m.tree
    ∧ (select_session m s).terminals = m.terminals
    ∧ (select_session m s).closedCalls = m.closedCalls
    ∧ (select_session m s).createdCalls = m.createdCalls
    ∧ (select_session m s).liveWidgets = m.liveWidgets
    ∧ (select_session m s).cwds = m.cwds
    ∧ (select_session m s).counter = m.counter := by
  unfold select_session
  split <;> simp

theorem select_session_current_mem (m : SessionManager) (s : Nat)
    (h : s ∈ m.terminals) : (select_session m s).current = some s := by
  unfold select_session
  rw [if_pos h]

theorem select_session_not_mem (m : SessionManager) (s : Nat)
    (h : s ∉ m.terminals) : select_session m s = m := by
  unfold select_session
  rw [if_neg h]

theorem closeFallbackRoots_fields (m : SessionManager) :
    (closeFallbackRoots m).tree = m.tree
    ∧ (closeFallbackRoots m).terminals = m.terminals
    ∧ (closeFallbackRoots m).closedCalls = m.closedCalls
    ∧ (closeFallbackRoots m).createdCalls = m.createdCalls
    ∧ (closeFallbackRoots m).liveWidgets = m.liveWidgets
    ∧ (closeFallbackRoots m).cwds = m.cwds
    ∧ (closeFallbackRoots m).counter = m.counter := by
  unfold closeFallbackRoots
  split
  · exact select_session_fields _ _
  · simp

theorem closeFallbackChild_fields (m : SessionManager) (cs : List Nat) :
    (closeFallbackChild m cs).tree = m.tree
    ∧ (closeFallbackChild m cs).terminals = m.terminals
    ∧ (closeFallbackChild m cs).closedCalls = m.closedCalls
    ∧ (closeFallbackChild m cs).createdCalls = m.createdCalls
    ∧ (closeFallbackChild m cs).liveWidgets = m.liveWidgets
    ∧ (closeFallbackChild m cs).cwds = m.cwds
    ∧ (closeFallbackChild m cs).counter = m.counter := by
  unfold closeFallbackChild
  split
  · split
    · exact select_session_fields _ _
    · exact closeFallbackRoots_fields _
  · exact closeFallbackRoots_fields _

theorem closeUpdateCurrent_fields (m2 : SessionManager) (s : Nat)
    (cs : List Nat) (par : Option Nat) :
    (closeUpdateCurrent m2 s cs par).tree = m2.tree
    ∧ (closeUpdateCurrent m2 s cs par).terminals = m2.terminals
    ∧ (closeUpdateCurrent m2 s cs par).closedCalls = m2.closedCalls
    ∧ (closeUpdateCurrent m2 s cs par).createdCalls = m2.createdCalls
    ∧ (closeUpdateCurrent m2 s cs par).liveWidgets = m2.liveWidgets
    ∧ (closeUpdateCurrent m2 s cs par).cwds = m2.cwds
    ∧ (closeUpdateCurrent m2 s cs par).counter = m2.counter := by
  unfold closeUpdateCurrent
  split
  · split
    · split
      · exact select_session_fields _ _
      · exact closeFallbackChild_fields _ _
    · exact closeFallbackChild_fields _ _
  · simp

theorem closeUpdateCurrent_not_current (m2 : SessionManager) (s : Nat)
    (cs : List Nat) (par : Option Nat) (h : m2.current ≠ some s) :
    closeUpdateCurrent m2 s cs par = m2 := by
  unfold closeUpdateCurrent
  rw [if_neg h]

/-- `close_session` leaves every component except `current`, `terminals`,
`tree`, `selectedCalls` and `closedCalls` unchanged, removes the session from
the surface map and the tree, and always appends the closed-callback
record. -/
theorem close_session_components (m : SessionManager) (s : Nat) :
    (close_session m s).tree = remove_node m.tree s
    ∧ (close_session m s).terminals =
        (if s ∈ m.terminals then m.terminals.erase s else m.terminals)
    ∧ (close_session m s).closedCalls =
        m.closedCalls ++ [(s, children m.tree s, get_parent m.tree s)]
    ∧ (close_session m s).createdCalls = m.createdCalls
    ∧ (close_session m s).liveWidgets = m.liveWidgets
    ∧ (close_session m s).cwds = m.cwds
    ∧ (close_session m s).counter = m.counter := by
  by_cases hs : s ∈ m.terminals
  · simp only [close_session, if_pos hs]
    obtain ⟨f1, f2, f3, f4, f5, f6, f7⟩ := closeUpdateCurrent_fields
      { m with terminals := m.terminals.erase s, tree := remove_node m.tree s }
      s (children m.tree s) (get_parent m.tree s)
    exact ⟨f1, f2,
      congrArg (fun l => l ++ [(s, children m.tree s, get_parent m.tree s)]) f3,
      f4, f5, f6, f7⟩
  · simp only [close_session, if_neg hs]
    obtain ⟨f1, f2, f3, f4, f5, f6, f7⟩ := closeUpdateCurrent_fields
      { m with tree := remove_node m.tree s }
      s (children m.tree s) (get_parent m.tree s)
    exact ⟨f1, f2,
      congrArg (fun l => l ++ [(s, children m.tree s, get_parent m.tree s)]) f3,
      f4, f5, f6, f7⟩

theorem closeFallbackRoots_cases (m : SessionManager) :
    (∀ r rs, m.tree.root_nodes = r :: rs → r ∈ m.terminals →
        (closeFallbackRoots m).current = some r)
    ∧ (m.tree.root_nodes = [] → (closeFallbackRoots m).current = none) := by
  constructor
  · intro r rs hr hrm
    unfold closeFallbackRoots get_roots
    rw [hr]
    exact select_session_current_mem m r hrm
  · intro hr
    unfold closeFallbackRoots get_roots
    rw [hr]

theorem closeFallbackChild_cases (m : SessionManager) (cs : List Nat) :
    (∀ c rest, cs = c :: rest → c ∈ m.terminals →
        (closeFallbackChild m cs).current = some c)
    ∧ ((∀ c rest, cs = c :: rest → c ∉ m.terminals) →
        closeFallbackChild m cs = closeFallbackRoots m) := by
  constructor
  · intro c rest hcs hc
    rw [hcs]
    unfold closeFallbackChild
    show (if c ∈ m.terminals then select_session m c
      else closeFallbackRoots m).current = some c
    rw [if_pos hc]
    exact select_session_current_mem m c hc
  · intro h
    cases cs with
    | nil => rfl
    | cons c rest =>
        unfold closeFallbackChild
        show (if c ∈ m.terminals then select_session m c
          else closeFallbackRoots m) = closeFallbackRoots m
        rw [if_neg (h c rest rfl)]

/-- The replacement priority of `close_session`, on the post-removal state
`m2`: (a) the former parent if it has a registered surface, else (b) the
first snapshotted child if it has one, else (c) the first remaining root if
it has one, else (d) null. -/
theorem closeUpdateCurrent_priority (m2 : SessionManager) (s : Nat)
    (cs : List Nat) (par : Option Nat) (h : m2.current = some s) :
    (∀ p, par = some p → p ∈ m2.terminals →
        (closeUpdateCurrent m2 s cs par).current = some p)
    ∧ (∀ c rest, (∀ p, par = some p → p ∉ m2.terminals) → cs = c :: rest →
        c ∈ m2.terminals → (closeUpdateCurrent m2 s cs par).current = some c)
    ∧ ((∀ p, par = some p → p ∉ m2.terminals) →
        (∀ c rest, cs = c :: rest → c ∉ m2.terminals) →
        ∀ r rs, m2.tree.root_nodes = r :: rs → r ∈ m2.terminals →
        (closeUpdateCurrent m2 s cs par).current = some r)
    ∧ ((∀ p, par = some p → p ∉ m2.terminals) →
        (∀ c rest, cs = c :: rest → c ∉ m2.terminals) →
        m2.tree.root_nodes = [] →
        (closeUpdateCurrent m2 s cs par).current = none) := by
  cases par with
  | some p =>
      refine ⟨?_, ?_, ?_, ?_⟩
      · intro p' hp' hpm
        have : p' = p := by injection hp' with h'; exact h'.symm
        subst this
        unfold closeUpdateCurrent
        rw [if_pos h]
        show (if p' ∈ m2.terminals then select_session m2 p'
          else closeFallbackChild m2 cs).current = some p'
        rw [if_pos hpm]
        exact select_session_current_mem m2 p' hpm
      · intro c rest hnp hcs hc
        unfold closeUpdateCurrent
        rw [if_pos h]
        show (if p ∈ m2.terminals then select_session m2 p
          else closeFallbackChild m2 cs).current = some c
        rw [if_neg (hnp p rfl)]
        exact (closeFallbackChild_cases m2 cs).1 c rest hcs hc
      · intro hnp hnc r rs hr hrm
        unfold closeUpdateCurrent
        rw [if_pos h]
        show (if p ∈ m2.terminals then select_session m2 p
          else closeFallbackChild m2 cs).current = some r
        rw [if_neg (hnp p rfl), (closeFallbackChild_cases m2 cs).2 hnc]
        exact (closeFallbackRoots_cases m2).1 r rs hr hrm
      · intro hnp hnc hr
        unfold closeUpdateCurrent
        rw [if_pos h]
        show (if p ∈ m2.terminals then select_session m2 p
          else closeFallbackChild m2 cs).current = none
        rw [if_neg (hnp p rfl), (closeFallbackChild_cases m2 cs).2 hnc]
        exact (closeFallbackRoots_cases m2).2 hr
  | none =>
      refine ⟨?_, ?_, ?_, ?_⟩
      · intro p' hp'
        exact absurd hp' (by simp)
      · intro c rest _ hcs hc
        unfold closeUpdateCurrent
        rw [if_pos h]
        exact (closeFallbackChild_cases m2 cs).1 c rest hcs hc
      · intro _ hnc r rs hr hrm
        unfold closeUpdateCurrent
        rw [if_pos h]
        show (closeFallbackChild m2 cs).current = some r
        rw [(closeFallbackChild_cases m2 cs).2 hnc]
        exact (closeFallbackRoots_cases m2).1 r rs hr hrm
      · intro _ hnc hr
        unfold closeUpdateCurrent
        rw [if_pos h]
        show (closeFallbackChild m2 cs).current = none
        rw [(closeFallbackChild_cases m2 cs).2 hnc]
        exact (closeFallbackRoots_cases m2).2 hr

/-- Exhaustive description of the replacement selection: when every candidate
the code reaches has a registered surface, the new current session is null or
one of parent / snapshotted child / remaining root. -/
theorem closeUpdateCurrent_exhaustive (m2 : SessionManager) (s : Nat)
    (cs : List Nat) (par : Option Nat) (h : m2.current = some s)
    (hpar : ∀ p, par = some p → p ∈ m2.terminals)
    (hcs : ∀ c rest, cs = c :: rest → c ∈ m2.terminals)
    (hroots : ∀ r rs, m2.tree.root_nodes = r :: rs → r ∈ m2.terminals) :
    (closeUpdateCurrent m2 s cs par).current = none
    ∨ ∃ y, (closeUpdateCurrent m2 s cs par).current = some y
        ∧ (par = some y ∨ y ∈ cs ∨ y ∈ m2.tree.root_nodes) := by
  cases hp : par with
  | some p =>
      obtain ⟨pa, _, _, _⟩ := closeUpdateCurrent_priority m2 s cs (some p) h
      right
      exact ⟨p, pa p rfl (hpar p hp), Or.inl rfl⟩
  | none =>
      cases hc : cs with
      | cons c rest =>
          obtain ⟨_, pb, _, _⟩ := closeUpdateCurrent_priority m2 s (c :: rest) none h
          right
          refine ⟨c, pb c rest ?_ rfl (hcs c rest hc),
            Or.inr (Or.inl (List.mem_cons_self c rest))⟩
          intro p hpp
          exact absurd hpp (by simp)
      | nil =>
          obtain ⟨_, _, pc, pd⟩ := closeUpdateCurrent_priority m2 s [] none h
          have hnp : ∀ p, (none : Option Nat) = some p → p ∉ m2.terminals := by
            intro p hpp
            exact absurd hpp (by simp)
          have hnc : ∀ c rest, ([] : List Nat) = c :: rest → c ∉ m2.terminals := by
            intro c rest hcc
            exact absurd hcc (by simp)
          cases hr : m2.tree.root_nodes with
          | cons r rs =>
              right
              exact ⟨r, pc hnp hnc r rs hr (hroots r rs hr),
                Or.inr (Or.inr (hr ▸ List.mem_cons_self r rs))⟩
          | nil =>
              left
              exact pd hnp hnc hr

/-- Tracking after `remove_node`: exactly the previously tracked sessions
other than the removed one. -/
theorem tracked_remove_iff (t : SessionTree) (s : Nat) (hwf : WF t) (x : Nat) :
    tracked (remove_node t s) x ↔ (tracked t x ∧ x ≠ s) := by
  cases hpm : pm t s with
  | none =>
      have heq : remove_node t s = t := by
        unfold remove_node
        rw [hpm]
      rw [heq]
      constructor
      · intro htr
        refine ⟨htr, ?_⟩
        intro hx
        rw [hx] at htr
        exact htr hpm
      · exact fun h => h.1
  | some par =>
      have h3 : ∀ y, pm (remove_node t s) y =
          if y = s then none
          else if y ∈ children t s then
            (match par with | none => some none | some p => some (some p))
          else pm t y := by
        cases par with
        | none => exact (remove_closed_none t s hpm).2.2
        | some p => exact (remove_closed_some t s p hpm).2.2
      unfold tracked
      rw [h3 x]
      by_cases hx : x = s
      · simp [hx]
      · rw [if_neg hx]
        by_cases hxc : x ∈ children t s
        · rw [if_pos hxc]
          have hmem := (hwf.childIff s x).mp hxc
          constructor
          · intro _
            refine ⟨?_, hx⟩
            rw [hmem]
            simp
          · intro _
            cases par <;> simp
        · rw [if_neg hxc]
          exact ⟨fun h => ⟨h, hx⟩, fun h => h.1⟩

theorem mem_all_remove_iff (t : SessionTree) (s : Nat) (hwf : WF t) (x : Nat) :
    x ∈ get_all_sessions (remove_node t s) ↔
      (x ∈ get_all_sessions t ∧ x ≠ s) := by
  rw [← tracked_iff_mem_all, ← tracked_iff_mem_all]
  exact tracked_remove_iff t s hwf x

theorem close_session_current_eq (m : SessionManager) (s : Nat)
    (hs : s ∈ m.terminals) :
    (close_session m s).current =
      (closeUpdateCurrent
        { m with terminals := m.terminals.erase s, tree := remove_node m.tree s }
        s (children m.tree s) (get_parent m.tree s)).current := by
  simp only [close_session, if_pos hs]

theorem close_session_current_eq_not_mem (m : SessionManager) (s : Nat)
    (hs : s ∉ m.terminals) :
    (close_session m s).current =
      (closeUpdateCurrent { m with tree := remove_node m.tree s }
        s (children m.tree s) (get_parent m.tree s)).current := by
  simp only [close_session, if_neg hs]

/-- C3: when the closed session is the current one, the replacement current
session follows the priority, first match wins: (a) the former parent if it
has a registered surface, (b) the first snapshotted child if it has a
registered surface, (c) the first remaining root, (d) otherwise null; and the
closed callback is invoked with the session, the pre-removal children
snapshot, and the pre-removal parent.  The hypotheses — a well-formed tree in
which every tracked session has a registered surface — hold in every state
the manager itself produces. -/
theorem C3_close_replacement_priority (m : SessionManager) (s : Nat)
    (hwf : WF m.tree)
    (hterm : ∀ x ∈ get_all_sessions m.tree, x ∈ m.terminals)
    (hcur : m.current = some s)
    (htr : s ∈ get_all_sessions m.tree) :
    (∀ p, get_parent m.tree s = some p → p ∈ m.terminals.erase s →
        (close_session m s).current = some p)
    ∧ (∀ c rest, (∀ p, get_parent m.tree s = some p → p ∉ m.terminals.erase s) →
        children m.tree s = c :: rest → c ∈ m.terminals.erase s →
        (close_session m s).current = some c)
    ∧ ((∀ p, get_parent m.tree s = some p → p ∉ m.terminals.erase s) →
        (∀ c rest, children m.tree s = c :: rest → c ∉ m.terminals.erase s) →
        ∀ r rs, (remove_node m.tree s).root_nodes = r :: rs →
        (close_session m s).current = some r)
    ∧ ((∀ p, get_parent m.tree s = some p → p ∉ m.terminals.erase s) →
        (∀ c rest, children m.tree s = c :: rest → c ∉ m.terminals.erase s) →
        (remove_node m.tree s).root_nodes = [] →
        (close_session m s).current = none)
    ∧ (close_session m s).closedCalls =
        m.closedCalls ++ [(s, children m.tree s, get_parent m.tree s)] := by
  have hsin : s ∈ m.terminals := hterm s htr
  have hce := close_session_current_eq m s hsin
  obtain ⟨pa, pb, pc, pd⟩ := closeUpdateCurrent_priority
    { m with terminals := m.terminals.erase s, tree := remove_node m.tree s }
    s (children m.tree s) (get_parent m.tree s) hcur
  refine ⟨?_, ?_, ?_, ?_, (close_session_components m s).2.2.1⟩
  · intro p hp hpm
    rw [hce]
    exact pa p hp hpm
  · intro c rest hnp hcs hc
    rw [hce]
    exact pb c rest hnp hcs hc
  · intro hnp hnc r rs hr
    rw [hce]
    have hwf' : WF (remove_node m.tree s) := WF_remove m.tree s hwf
    have hrr : r ∈ (remove_node m.tree s).root_nodes := by
      rw [hr]
      exact List.mem_cons_self r rs
    have hrt : tracked (remove_node m.tree s) r := by
      unfold tracked
      rw [(hwf'.rootIff r).mp hrr]
      simp
    obtain ⟨hrt0, hrs⟩ := (tracked_remove_iff m.tree s hwf r).mp hrt
    have hrm : r ∈ m.terminals := hterm r ((tracked_iff_mem_all m.tree r).mp hrt0)
    have hrm' : r ∈ m.terminals.erase s := (List.mem_erase_of_ne hrs).mpr hrm
    exact pc hnp hnc r rs hr hrm'
  · intro hnp hnc hr
    rw [hce]
    exact pd hnp hnc hr

/-- Witness for C3: two root sessions 1 (current) and 2, both with surfaces;
closing 1 falls through to priority step (c) and selects root 2; the closed
callback records `(1, [], none)`. -/
theorem C3_close_replacement_priority_witness :
    (∀ x ∈ get_all_sessions (SessionManager.mk
        (SessionTree.mk [1, 2] [(1, none), (2, none)] [])
        (some 1) [1, 2] 2 [1, 2] [] [1, 2] [] []).tree,
      x ∈ (SessionManager.mk (SessionTree.mk [1, 2] [(1, none), (2, none)] [])
        (some 1) [1, 2] 2 [1, 2] [] [1, 2] [] []).terminals)
    ∧ (SessionManager.mk (SessionTree.mk [1, 2] [(1, none), (2, none)] [])
        (some 1) [1, 2] 2 [1, 2] [] [1, 2] [] []).current = some 1
    ∧ 1 ∈ get_all_sessions (SessionManager.mk
        (SessionTree.mk [1, 2] [(1, none), (2, none)] [])
        (some 1) [1, 2] 2 [1, 2] [] [1, 2] [] []).tree
    ∧ (close_session (SessionManager.mk
        (SessionTree.mk [1, 2] [(1, none), (2, none)] [])
        (some 1) [1, 2] 2 [1, 2] [] [1, 2] [] []) 1).current = some 2 := by
  refine ⟨by decide, rfl, by decide, ?_⟩
  have hthm := C3_close_replacement_priority
    (SessionManager.mk (SessionTree.mk [1, 2] [(1, none), (2, none)] [])
      (some 1) [1, 2] 2 [1, 2] [] [1, 2] [] []) 1
    (WF_applyOps SessionTree.empty [Op.add 1 none, Op.add 2 none]
      WF_empty (by decide) 2)
    (by decide) rfl (by decide)
  refine hthm.2.2.1 ?_ ?_ 2 [] (by decide)
  · intro p hp
    have hn : get_parent (SessionTree.mk [1, 2] [(1, none), (2, none)] []) 1
        = none := by decide
    rw [hn] at hp
    exact absurd hp (by simp)
  · intro c rest hc
    have hn : children (SessionTree.mk [1, 2] [(1, none), (2, none)] []) 1
        = [] := by decide
    rw [hn] at hc
    exact absurd hc (by simp)

theorem get_parent_some {t : SessionTree} {s p : Nat}
    (h : get_parent t s = some p) : pm t s = some (some p) := by
  unfold get_parent at h
  cases hv : pm t s with
  | none => rw [hv] at h; exact absurd h (by simp)
  | some v =>
      rw [hv] at h
      have h' : v = some p := h
      rw [h']

/-- C4 (amended): under the manager's own state invariant — well-formed tree,
every tracked session has a registered surface, and the current cursor is
tracked when set — `close_session` leaves the current cursor null or pointing
at a tracked session, and never at the session just removed.  (As stated over
arbitrary states the claim is false: see the counterexample, where the
fallback root has no registered surface and the stale cursor survives.) -/
theorem C4_amended_close_current_in_tree (m : SessionManager) (s : Nat)
    (hwf : WF m.tree)
    (hterm : ∀ x ∈ get_all_sessions m.tree, x ∈ m.terminals)
    (hcur : ∀ c, m.current = some c → c ∈ get_all_sessions m.tree) :
    ((close_session m s).current = none
      ∨ ∃ c, (close_session m s).current = some c
          ∧ c ∈ get_all_sessions (close_session m s).tree)
    ∧ (close_session m s).current ≠ some s := by
  have htree : (close_session m s).tree = remove_node m.tree s :=
    (close_session_components m s).1
  have hsnotall : s ∉ get_all_sessions (remove_node m.tree s) := by
    intro h
    exact ((mem_all_remove_iff m.tree s hwf s).mp h).2 rfl
  have hmain : (close_session m s).current = none
      ∨ ∃ c, (close_session m s).current = some c
          ∧ c ∈ get_all_sessions (close_session m s).tree := by
    by_cases hc0 : m.current = some s
    · have hsall : s ∈ get_all_sessions m.tree := hcur s hc0
      have hsin : s ∈ m.terminals := hterm s hsall
      have hstr : tracked m.tree s := (tracked_iff_mem_all m.tree s).mpr hsall
      have hce := close_session_current_eq m s hsin
      have hex := closeUpdateCurrent_exhaustive
        { m with terminals := m.terminals.erase s, tree := remove_node m.tree s }
        s (children m.tree s) (get_parent m.tree s) hc0 ?_ ?_ ?_
      · rcases hex with hnone | ⟨y, hy, hsrc⟩
        · left
          rw [hce]
          exact hnone
        · right
          refine ⟨y, by rw [hce]; exact hy, ?_⟩
          rw [htree]
          have hytr' : tracked (remove_node m.tree s) y := by
            rcases hsrc with hp | hcs' | hroot
            · have hpm : pm m.tree s = some (some y) := get_parent_some hp
              have hytr : tracked m.tree y := hwf.parentTracked s y hpm
              have hys : y ≠ s := by
                intro h
                rw [h] at hpm
                exact no_self_parent hwf.termin s hpm
              exact (tracked_remove_iff m.tree s hwf y).mpr ⟨hytr, hys⟩
            · have hpm : pm m.tree y = some (some s) :=
                (hwf.childIff s y).mp hcs'
              have hytr : tracked m.tree y := by
                unfold tracked
                rw [hpm]
                simp
              have hys : y ≠ s := by
                intro h
                rw [h] at hpm
                exact no_self_parent hwf.termin s hpm
              exact (tracked_remove_iff m.tree s hwf y).mpr ⟨hytr, hys⟩
            · have hwf' : WF (remove_node m.tree s) := WF_remove m.tree s hwf
              unfold tracked
              rw [(hwf'.rootIff y).mp hroot]
              simp
          exact (tracked_iff_mem_all _ y).mp hytr'
      · intro p hp
        have hpm : pm m.tree s = some (some p) := get_parent_some hp
        have hptr : tracked m.tree p := hwf.parentTracked s p hpm
        have hps : p ≠ s := by
          intro h
          rw [h] at hpm
          exact no_self_parent hwf.termin s hpm
        exact (List.mem_erase_of_ne hps).mpr
          (hterm p ((tracked_iff_mem_all m.tree p).mp hptr))
      · intro c rest hcs'
        have hcm : c ∈ children m.tree s := by
          rw [hcs']
          exact List.mem_cons_self c rest
        have hpm : pm m.tree c = some (some s) := (hwf.childIff s c).mp hcm
        have hctr : tracked m.tree c := by
          unfold tracked
          rw [hpm]
          simp
        have hcsne : c ≠ s := by
          intro h
          rw [h] at hpm
          exact no_self_parent hwf.termin s hpm
        exact (List.mem_erase_of_ne hcsne).mpr
          (hterm c ((tracked_iff_mem_all m.tree c).mp hctr))
      · intro r rs hr
        have hwf' : WF (remove_node m.tree s) := WF_remove m.tree s hwf
        have hrr : r ∈ (remove_node m.tree s).root_nodes := by
          rw [hr]
          exact List.mem_cons_self r rs
        have hrt : tracked (remove_node m.tree s) r := by
          unfold tracked
          rw [(hwf'.rootIff r).mp hrr]
          simp
        obtain ⟨hrt0, hrs⟩ := (tracked_remove_iff m.tree s hwf r).mp hrt
        exact (List.mem_erase_of_ne hrs).mpr
          (hterm r ((tracked_iff_mem_all m.tree r).mp hrt0))
    · have hcu : (close_session m s).current = m.current := by
        by_cases hsin : s ∈ m.terminals
        · have hne := closeUpdateCurrent_not_current
            { m with terminals := m.terminals.erase s,
                     tree := remove_node m.tree s }
            s (children m.tree s) (get_parent m.tree s) hc0
          rw [close_session_current_eq m s hsin, hne]
        · have hne := closeUpdateCurrent_not_current
            { m with tree := remove_node m.tree s }
            s (children m.tree s) (get_parent m.tree s) hc0
          rw [close_session_current_eq_not_mem m s hsin, hne]
      cases hmc : m.current with
      | none =>
          left
          rw [hcu, hmc]
      | some c =>
          right
          have hcall : c ∈ get_all_sessions m.tree := hcur c hmc
          have hcs' : c ≠ s := by
            intro h
            rw [h] at hmc
            exact hc0 hmc
          refine ⟨c, by rw [hcu, hmc], ?_⟩
          rw [htree, mem_all_remove_iff m.tree s hwf]
          exact ⟨hcall, hcs'⟩
  refine ⟨hmain, ?_⟩
  rcases hmain with hnone | ⟨c, hc, hcall⟩
  · rw [hnone]
    simp
  · rw [hc]
    intro h
    injection h with h'
    rw [htree] at hcall
    rw [h'] at hcall
    exact hsnotall hcall

/-- Counterexample to C4 as stated ("for every starting state"): two roots,
1 (current, with surface) and 2 (no registered surface); closing 1 reaches
priority step (c), but `select_session` refuses the surfaceless root 2, so
`current` keeps pointing at the removed session 1, which is no longer
tracked. -/
theorem C4_close_current_counterexample :
    (close_session (SessionManager.mk
        (SessionTree.mk [1, 2] [(1, none), (2, none)] [])
        (some 1) [1] 2 [1] [] [1] [] []) 1).current = some 1
    ∧ 1 ∉ get_all_sessions (close_session (SessionManager.mk
        (SessionTree.mk [1, 2] [(1, none), (2, none)] [])
        (some 1) [1] 2 [1] [] [1] [] []) 1).tree := by decide

/-- Witness for the amended C4 at a concrete invariant state: closing the
current root 1 moves the cursor to the tracked root 2. -/
theorem C4_amended_close_current_in_tree_witness :
    (∀ x ∈ get_all_sessions (SessionManager.mk
        (SessionTree.mk [1, 2] [(1, none), (2, none)] [])
        (some 1) [1, 2] 2 [1, 2] [] [1, 2] [] []).tree,
      x ∈ (SessionManager.mk (SessionTree.mk [1, 2] [(1, none), (2, none)] [])
        (some 1) [1, 2] 2 [1, 2] [] [1, 2] [] []).terminals)
    ∧ (((close_session (SessionManager.mk
        (SessionTree.mk [1, 2] [(1, none), (2, none)] [])
        (some 1) [1, 2] 2 [1, 2] [] [1, 2] [] []) 1).current = none
      ∨ ∃ c, (close_session (SessionManager.mk
          (SessionTree.mk [1, 2] [(1, none), (2, none)] [])
          (some 1) [1, 2] 2 [1, 2] [] [1, 2] [] []) 1).current = some c
          ∧ c ∈ get_all_sessions (close_session (SessionManager.mk
              (SessionTree.mk [1, 2] [(1, none), (2, none)] [])
              (some 1) [1, 2] 2 [1, 2] [] [1, 2] [] []) 1).tree)
      ∧ (close_session (SessionManager.mk
          (SessionTree.mk [1, 2] [(1, none), (2, none)] [])
          (some 1) [1, 2] 2 [1, 2] [] [1, 2] [] []) 1).current ≠ some 1) :=
  ⟨by decide,
    C4_amended_close_current_in_tree
      (SessionManager.mk (SessionTree.mk [1, 2] [(1, none), (2, none)] [])
        (some 1) [1, 2] 2 [1, 2] [] [1, 2] [] []) 1
      (WF_applyOps SessionTree.empty [Op.add 1 none, Op.add 2 none]
        WF_empty (by decide) 2)
      (by decide)
      (by
        intro c hc
        injection hc with h'
        rw [← h']
        decide)⟩

/-- C6 (amended): operations on a stale session are inert, except that
`close_session` still fires the closed callback.  Tree `remove_node` on an
untracked session is a strict no-op; `select_session` on a session without a
registered surface leaves the whole manager unchanged (no current change, no
onSelected); `close_session` on a session that is untracked, surfaceless and
not the current cursor never raises, and mutates neither the tree nor the
cursor nor the surface mapping nor any other log — but it does invoke the
onClosed callback with `(s, children-snapshot, null)` (the claim's "invokes
no callbacks" is refuted by the counterexample). -/
theorem C6_amended_stale_session_noop (m : SessionManager) (s : Nat)
    (hs : pm m.tree s = none) (hst : s ∉ m.terminals)
    (hc : m.current ≠ some s) :
    remove_node m.tree s = m.tree
    ∧ (∀ x, x ∉ m.terminals → select_session m x = m)
    ∧ (close_session m s).tree = m.tree
    ∧ (close_session m s).current = m.current
    ∧ (close_session m s).terminals = m.terminals
    ∧ (close_session m s).selectedCalls = m.selectedCalls
    ∧ (close_session m s).createdCalls = m.createdCalls
    ∧ (close_session m s).liveWidgets = m.liveWidgets
    ∧ (close_session m s).closedCalls
        = m.closedCalls ++ [(s, children m.tree s, none)] := by
  have hrm : remove_node m.tree s = m.tree := by
    unfold remove_node
    rw [hs]
  have hgp : get_parent m.tree s = none := by
    unfold get_parent
    rw [hs]
  have hne := closeUpdateCurrent_not_current
    { m with tree := remove_node m.tree s }
    s (children m.tree s) (get_parent m.tree s) hc
  have hkey : close_session m s =
      { m with tree := remove_node m.tree s,
               closedCalls := m.closedCalls
                 ++ [(s, children m.tree s, get_parent m.tree s)] } := by
    simp only [close_session, if_neg hst]
    rw [hne]
  refine ⟨hrm, fun x hx => select_session_not_mem m x hx,
    ?_, ?_, ?_, ?_, ?_, ?_, ?_⟩
  · rw [hkey]
    exact hrm
  · rw [hkey]
  · rw [hkey]
  · rw [hkey]
  · rw [hkey]
  · rw [hkey]
  · rw [hkey, hgp]

/-- Counterexample to C6 as stated: closing a session that is neither tracked
nor in the surface map still invokes the closed callback (with the session,
an empty child snapshot, and a null parent), so the operation is not free of
callback invocations. -/
theorem C6_stale_close_callback_counterexample :
    pm (SessionManager.mk (SessionTree.mk [] [] [])
        none [] 0 [] [] [] [] []).tree 7 = none
    ∧ 7 ∉ (SessionManager.mk (SessionTree.mk [] [] [])
        none [] 0 [] [] [] [] []).terminals
    ∧ (close_session (SessionManager.mk (SessionTree.mk [] [] [])
        none [] 0 [] [] [] [] []) 7).closedCalls = [(7, [], none)] := by
  decide

/-- Witness for the amended C6: closing stale session 9 in a manager whose
only session is the root 1 leaves the tree untouched. -/
theorem C6_amended_stale_session_noop_witness :
    pm (SessionManager.mk (SessionTree.mk [1] [(1, none)] [])
        (some 1) [1] 1 [1] [] [1] [] []).tree 9 = none
    ∧ 9 ∉ (SessionManager.mk (SessionTree.mk [1] [(1, none)] [])
        (some 1) [1] 1 [1] [] [1] [] []).terminals
    ∧ (SessionManager.mk (SessionTree.mk [1] [(1, none)] [])
        (some 1) [1] 1 [1] [] [1] [] []).current ≠ some 9
    ∧ (close_session (SessionManager.mk (SessionTree.mk [1] [(1, none)] [])
        (some 1) [1] 1 [1] [] [1] [] []) 9).tree
        = (SessionManager.mk (SessionTree.mk [1] [(1, none)] [])
        (some 1) [1] 1 [1] [] [1] [] []).tree :=
  ⟨by decide, by decide, by decide,
    (C6_amended_stale_session_noop
      (SessionManager.mk (SessionTree.mk [1] [(1, none)] [])
        (some 1) [1] 1 [1] [] [1] [] []) 9
      (by decide) (by decide) (by decide)).2.2.1⟩

/-- C7: when spawning the shell fails, `new_session` returns null, destroys
the freshly allocated widget, and leaves no partial state: tree, surface
mapping, current session, callback logs, widget list and session cwd store
are all unchanged (only the private session counter has advanced).  The
freshness hypothesis on the widget identifier holds in every reachable state
(widget ids never exceed the counter). -/
theorem C7_spawn_failure_no_partial_state (m : SessionManager) (home : String)
    (parent : Option Nat) (cwdArg : Option String)
    (hfresh : m.counter + 1 ∉ m.liveWidgets) :
    (new_session m false home parent cwdArg).2 = none
    ∧ (new_session m false home parent cwdArg).1.tree = m.tree
    ∧ (new_session m false home parent cwdArg).1.terminals = m.terminals
    ∧ (new_session m false home parent cwdArg).1.current = m.current
    ∧ (new_session m false home parent cwdArg).1.createdCalls = m.createdCalls
    ∧ (new_session m false home parent cwdArg).1.closedCalls = m.closedCalls
    ∧ (new_session m false home parent cwdArg).1.selectedCalls = m.selectedCalls
    ∧ (new_session m false home parent cwdArg).1.liveWidgets = m.liveWidgets
    ∧ (new_session m false home parent cwdArg).1.cwds = m.cwds := by
  have herase : (m.liveWidgets ++ [m.counter + 1]).erase (m.counter + 1)
      = m.liveWidgets := by
    rw [List.erase_append_right _ hfresh]
    simp
  have hkey : new_session m false home parent cwdArg =
      ({ m with counter := m.counter + 1,
                liveWidgets :=
                  (m.liveWidgets ++ [m.counter + 1]).erase (m.counter + 1) },
       none) := by
    simp [new_session]
  rw [hkey]
  exact ⟨rfl, rfl, rfl, rfl, rfl, rfl, rfl, herase, rfl⟩

/-- Witness for C7 at the initial manager state. -/
theorem C7_spawn_failure_no_partial_state_witness :
    (SessionManager.mk (SessionTree.mk [] [] [])
        none [] 0 [] [] [] [] []).counter + 1
      ∉ (SessionManager.mk (SessionTree.mk [] [] [])
        none [] 0 [] [] [] [] []).liveWidgets
    ∧ (new_session (SessionManager.mk (SessionTree.mk [] [] [])
        none [] 0 [] [] [] [] []) false "/root" none none).2 = none :=
  ⟨by decide,
    (C7_spawn_failure_no_partial_state
      (SessionManager.mk (SessionTree.mk [] [] []) none [] 0 [] [] [] [] [])
      "/root" none none (by decide)).1⟩

/-- C10: `get_parent` returns null both for an untracked session and for a
tracked root, so the parent query cannot distinguish the two; consequently
`new_sibling` invoked while the current session is stale passes a null
parent to `new_session` — the new session is created as a root. -/
theorem C10_get_parent_untracked_as_root (t : SessionTree) (s r : Nat)
    (m : SessionManager) (c : Nat)
    (hs : pm t s = none) (hr : pm t r = some none)
    (hcur : m.current = some c) (hstale : pm m.tree c = none) :
    get_parent t s = none
    ∧ get_parent t r = none
    ∧ ∀ spawnOk home, new_sibling m spawnOk home
        = new_session m spawnOk home none
            (some ((alookup m.cwds c).getD "")) := by
  refine ⟨?_, ?_, ?_⟩
  · unfold get_parent
    rw [hs]
  · unfold get_parent
    rw [hr]
  · intro spawnOk home
    unfold new_sibling
    rw [hcur]
    have hgp : get_parent m.tree c = none := by
      unfold get_parent
      rw [hstale]
    show new_session m spawnOk home (get_parent m.tree c)
      (some ((alookup m.cwds c).getD "")) = _
    rw [hgp]

/-- Witness for C10: `get_parent` answers null for both the stale session 5
and the root 1, and a sibling created from the stale current session 5 lands
at the root level. -/
theorem C10_get_parent_untracked_as_root_witness :
    pm (SessionTree.mk [1] [(1, none)] []) 5 = none
    ∧ pm (SessionTree.mk [1] [(1, none)] []) 1 = some none
    ∧ new_sibling (SessionManager.mk (SessionTree.mk [1] [(1, none)] [])
        (some 5) [1] 1 [1] [] [1] [] []) true "/root"
      = new_session (SessionManager.mk (SessionTree.mk [1] [(1, none)] [])
        (some 5) [1] 1 [1] [] [1] [] []) true "/root" none (some "") :=
  ⟨by decide, by decide,
    (C10_get_parent_untracked_as_root (SessionTree.mk [1] [(1, none)] []) 5 1
      (SessionManager.mk (SessionTree.mk [1] [(1, none)] [])
        (some 5) [1] 1 [1] [] [1] [] []) 5
      (by decide) (by decide) rfl (by decide)).2.2 true "/root"⟩

/-- C8: two sessions are equal and hash equal iff their `(pid, pty_fd)`
pairs coincide; in particular a session with different `title`/`cwd` but the
same identity pair compares equal, hashes equal, and retrieves the same
dictionary entries, so mutating `title`/`cwd` after insertion changes no
hash and breaks no lookup. -/
theorem C8_session_identity (h2 : Int × Int → Int) (a b : TerminalSession)
    (m : List (TerminalSession × Nat)) (s : TerminalSession)
    (tl : Option String) (cw : String) :
    ((sessionEq a b = true ∧ sessionHash h2 a = sessionHash h2 b)
      ↔ (a.pid = b.pid ∧ a.pty_fd = b.pty_fd))
    ∧ sessionEq { s with title := tl, cwd := cw } s = true
    ∧ sessionHash h2 { s with title := tl, cwd := cw } = sessionHash h2 s
    ∧ sessionLookup m { s with title := tl, cwd := cw } = sessionLookup m s := by
  refine ⟨?_, ?_, ?_, ?_⟩
  · constructor
    · rintro ⟨he, _⟩
      simp only [sessionEq, Bool.and_eq_true, beq_iff_eq] at he
      exact he
    · rintro ⟨h1, h3⟩
      constructor
      · simp [sessionEq, h1, h3]
      · simp [sessionHash, h1, h3]
  · simp [sessionEq]
  · rfl
  · induction m with
    | nil => rfl
    | cons kv rest ih =>
        obtain ⟨k, v⟩ := kv
        simp only [sessionLookup]
        have hq : sessionEq k { s with title := tl, cwd := cw }
            = sessionEq k s := rfl
        rw [hq]
        split
        · rfl
        · exact ih

theorem hread_halloc (h : ListHeap) (v : List Nat) :
    hread (halloc h v).1 (halloc h v).2 = v := by
  unfold hread halloc
  rw [List.getElem?_concat_length]
  rfl

theorem hread_hwrite_ne (h : ListHeap) (r r' : Nat) (v : List Nat)
    (hne : r' ≠ r) : hread (hwrite h r' v) r = hread h r := by
  unfold hread hwrite
  rw [List.getElem?_set_ne hne]

theorem hread_halloc_old (h : ListHeap) (v : List Nat) (r : Nat)
    (hr : r < h.cells.length) : hread (halloc h v).1 r = hread h r := by
  unfold hread halloc
  rw [List.getElem?_append_left hr]

/-- C9: `get_roots` and `get_children` hand out defensive copies: the
returned list object has the same contents as the internal one but a fresh
reference, so any caller mutation of the returned object leaves the tree's
internal list — and hence the result of a subsequent query — unchanged. -/
theorem C9_queries_defensive_copies (h : ListHeap) (rootRef childRef : Nat)
    (hr : rootRef < h.cells.length) (hc : childRef < h.cells.length)
    (v w : List Nat) :
    (hread (get_roots_heap h rootRef).1 (get_roots_heap h rootRef).2
      = hread h rootRef)
    ∧ (get_roots_heap h rootRef).2 ≠ rootRef
    ∧ hread
        (hwrite (get_roots_heap h rootRef).1 (get_roots_heap h rootRef).2 v)
        rootRef
      = hread h rootRef
    ∧ (hread (get_children_heap h childRef).1 (get_children_heap h childRef).2
      = hread h childRef)
    ∧ (get_children_heap h childRef).2 ≠ childRef
    ∧ hread
        (hwrite (get_children_heap h childRef).1
          (get_children_heap h childRef).2 w)
        childRef
      = hread h childRef := by
  have hfr : (get_roots_heap h rootRef).2 ≠ rootRef := by
    show h.cells.length ≠ rootRef
    omega
  have hfc : (get_children_heap h childRef).2 ≠ childRef := by
    show h.cells.length ≠ childRef
    omega
  refine ⟨hread_halloc h _, hfr, ?_, hread_halloc h _, hfc, ?_⟩
  · rw [hread_hwrite_ne _ _ _ _ hfr]
    exact hread_halloc_old h _ rootRef hr
  · rw [hread_hwrite_ne _ _ _ _ hfc]
    exact hread_halloc_old h _ childRef hc

/-- Witness for C9 on a two-cell heap. -/
theorem C9_queries_defensive_copies_witness :
    (0 : Nat) < (ListHeap.mk [[1, 2], [3]]).cells.length
    ∧ (1 : Nat) < (ListHeap.mk [[1, 2], [3]]).cells.length
    ∧ hread
        (hwrite (get_roots_heap (ListHeap.mk [[1, 2], [3]]) 0).1
          (get_roots_heap (ListHeap.mk [[1, 2], [3]]) 0).2 [9, 9])
        0
      = hread (ListHeap.mk [[1, 2], [3]]) 0 :=
  ⟨by decide, by decide,
    (C9_queries_defensive_copies (ListHeap.mk [[1, 2], [3]]) 0 1
      (by decide) (by decide) [9, 9] []).2.2.1⟩

/-- Counterexample to C5 as stated: the code never checks for the
`"<user>@<host>"` shape — any title containing `": "` is transformed.
`"foo: bar"` does not match the claimed pattern (no `"@"`), so per the claim
it should be used verbatim, yet the code renders `"bar (foo)"`. -/
theorem C5_title_pattern_counterexample :
    parse_terminal_title "/tmp" "foo: bar" = "bar (foo)"
    ∧ parse_terminal_title "/tmp" "foo: bar" ≠ "foo: bar" := by decide

/-- C5 (amended): the actual criterion is containing `": "`, not matching
`"<user>@<host>: <path>"`: an empty raw title falls back to the short form
of the cwd (with cwd `"/"` giving `"/"`); a title without `": "` is used
verbatim; a title containing `": "` is split at its first occurrence into a
prefix (the claimed `user@host`, but not validated) and a path, both
stripped, and rendered `"<shortPath> (<prefix>)"` with `shortPath` the last
one or two path components — as on the spec's own examples. -/
theorem C5_amended_title_derivation (cwd t : String) :
    (t = "" → parse_terminal_title cwd t = get_short_path_title cwd)
    ∧ (splitFirstColonSpace t.data = none → t ≠ "" →
        parse_terminal_title cwd t = t)
    ∧ (∀ uh p, splitFirstColonSpace t.data = some (uh, p) → t ≠ "" →
        parse_terminal_title cwd t
          = get_short_path_title (String.mk (pyStrip p))
            ++ " (" ++ String.mk (pyStrip uh) ++ ")")
    ∧ get_short_path_title "/" = "/"
    ∧ parse_terminal_title "" "alice@host: /home/alice/proj"
        = "alice/proj (alice@host)"
    ∧ parse_terminal_title "/home/alice/proj" "" = "alice/proj" := by
  refine ⟨?_, ?_, ?_, by decide, by decide, by decide⟩
  · intro h
    rw [h]
    unfold parse_terminal_title
    rw [if_pos rfl]
  · intro hsplit hne
    unfold parse_terminal_title
    rw [if_neg hne, hsplit]
  · intro uh p hsplit hne
    unfold parse_terminal_title
    rw [if_neg hne, hsplit]

/-- Witness for the amended C5 on the spec's own example title. -/
theorem C5_amended_title_derivation_witness :
    splitFirstColonSpace ("alice@host: /home/alice/proj").data
      = some (("alice@host").data, ("/home/alice/proj").data)
    ∧ parse_terminal_title "" "alice@host: /home/alice/proj"
      = get_short_path_title (String.mk (pyStrip ("/home/alice/proj").data))
        ++ " (" ++ String.mk (pyStrip ("alice@host").data) ++ ")" :=
  ⟨by decide,
    (C5_amended_title_derivation "" "alice@host: /home/alice/proj").2.2.1
      ("alice@host").data ("/home/alice/proj").data (by decide) (by decide)⟩

end TST
